import Mathlib

/-!
# megacmd: path resolution and tree mutation

A shallow embedding of `examples/megacmd.cpp`: the path splitter and resolver
`nodebypath`, its inverse `nodepath`, the wait helpers `actUpon...`, the word
splitter of `process_line` and its commands `mv`, `mkdir`, `rm`, `cd` and
`version`.

Conventions.

* A C string is the list of its bytes, each a natural number below 256.  The
  terminating NUL is the end of the list; a byte `0` inside a list is read as
  the terminator, as the C code would.
* `char` is signed (the platform the program is built for): the test
  `*ptr >= 0` holds exactly for the bytes below 128.
* The `MegaApi` object is not part of the program text; it is a parameter of
  every definition that uses it.
-/

namespace MegaCmd

/-- The bytes of a C string, terminator excluded. -/
abbrev CStr := List Nat

/-- Byte value of the backslash. -/
def BACKSLASH : Nat := 92

/-- Byte value of the slash. -/
def SLASH : Nat := 47

/-- Byte value of the colon. -/
def COLON : Nat := 58

/-- The path `"."`. -/
def DOT : CStr := [46]

/-- The path `".."`. -/
def DOTDOT : CStr := [46, 46]

/-- The name `"in"`. -/
def IN : CStr := [105, 110]

/-- The name `"bin"`. -/
def BIN : CStr := [98, 105, 110]

/-! ## The path splitter (lines 1151-1226) -/

/-- What the splitting loop leaves behind: the vector `c` of path components,
the flag `remote` and the counter `l`. -/
structure SplitState where
  c : List CStr
  remote : Bool
  l : Nat
deriving DecidableEq, Repr

/-- The value given to `l` at a byte with the sign bit set (lines 1200-1215);
`l` is `0` when the chain of tests is entered, and stays so when none holds. -/
def leadSkip (b : Nat) : Nat :=
  if b &&& 0xf0 = 0xe0 then 1
  else if b &&& 0xf8 = 0xf0 then 2
  else if b &&& 0xfc = 0xf8 then 3
  else if b &&& 0xfe = 0xfc then 4
  else 0

/-- One pass of the loop body with `*ptr == 0`, followed by the failing loop
condition: with `l == 0` the pending text is appended and the component pushed,
otherwise `l` is decremented. -/
def splitAtEnd (l : Nat) (s pend : CStr) (c : List CStr) (remote : Bool) : SplitState :=
  if l = 0 then ⟨c ++ [s ++ pend], remote, 0⟩ else ⟨c, remote, l - 1⟩

/-- The loop `do { ... } while (*ptr++)` of `nodebypath`.  The last argument is
the text from `ptr` on, `pend` is the text between `bptr` and `ptr`, and `s`,
`c`, `remote`, `l` are the variables of the source.  `none` is the
`return NULL` taken inside the loop.

In the backslash branch the source executes `bptr = ++ptr`, then `ptr++` and
`continue`, and `continue` evaluates the loop condition `*ptr++`: the escaped
byte and the byte after it are both passed over, and the loop ends there when
that second byte is the terminator. -/
def splitLoop (l : Nat) (s pend : CStr) (c : List CStr) (remote : Bool) :
    CStr → Option SplitState
  | [] => some (splitAtEnd l s pend c remote)
  | b :: rest =>
    if b = 0 then some (splitAtEnd l s pend c remote)
    else if l ≠ 0 then splitLoop (l - 1) s (pend ++ [b]) c remote rest
    else if 128 ≤ b then splitLoop (leadSkip b) s (pend ++ [b]) c remote rest
    else if b = BACKSLASH then
      match rest with
      | [] => some ⟨c ++ [s ++ pend], remote, 0⟩
      | e :: rest1 =>
        if e = 0 then some ⟨c ++ [s ++ pend], remote, 0⟩
        else
          match rest1 with
          | [] => some ⟨c, remote, 0⟩
          | f :: rest2 =>
            if f = 0 then some ⟨c, remote, 0⟩
            else splitLoop 0 (s ++ pend) [e, f] c remote rest2
    else if b = COLON then
      if c ≠ [] then none
      else splitLoop 0 [] [] (c ++ [s ++ pend]) true rest
    else if b = SLASH then splitLoop 0 [] [] (c ++ [s ++ pend]) remote rest
    else splitLoop 0 s (pend ++ [b]) c remote rest

/-- The splitting loop run from the initial values of the variables. -/
def splitPath (path : CStr) : Option SplitState :=
  splitLoop 0 [] [] [] false path

/-! ## Correctly encoded text -/

/-- The number of continuation bytes a lead byte of UTF-8 announces (the
forms of two to six bytes); `none` for a byte that is not a lead byte. -/
def contBytes (b : Nat) : Option Nat :=
  if 0xC0 ≤ b ∧ b ≤ 0xDF then some 1
  else if 0xE0 ≤ b ∧ b ≤ 0xEF then some 2
  else if 0xF0 ≤ b ∧ b ≤ 0xF7 then some 3
  else if 0xF8 ≤ b ∧ b ≤ 0xFB then some 4
  else if 0xFC ≤ b ∧ b ≤ 0xFD then some 5
  else none

/-- The text is a sequence of complete UTF-8 forms once `k` pending
continuation bytes have been read: a byte `1..0x7F` stands alone, a lead byte
is followed by as many bytes `0x80..0xBF` as it announces.  No byte is `0`. -/
def utf8From : Nat → CStr → Bool
  | k, [] => decide (k = 0)
  | 0, b :: rest =>
    if 1 ≤ b ∧ b ≤ 0x7F then utf8From 0 rest
    else
      match contBytes b with
      | some k => utf8From k rest
      | none => false
  | k + 1, b :: rest => decide (0x80 ≤ b ∧ b ≤ 0xBF) && utf8From k rest

/-- The C string is correctly encoded UTF-8 text. -/
def utf8Valid (p : CStr) : Bool := utf8From 0 p

/-- The text has none of the bytes `\`, `:` and `/`. -/
def noSpecial (p : CStr) : Prop := ∀ b ∈ p, b ≠ BACKSLASH ∧ b ≠ COLON ∧ b ≠ SLASH

instance (p : CStr) : Decidable (noSpecial p) := by unfold noSpecial; infer_instance

/-! ## Nodes, requests and the api -/

/-- The node types `MegaNode::TYPE_*`. -/
inductive NodeType
  | TYPE_UNKNOWN
  | TYPE_FILE
  | TYPE_FOLDER
  | TYPE_ROOT
  | TYPE_INCOMING
  | TYPE_RUBBISH
deriving DecidableEq, Repr

/-- The data a `MegaNode` object carries, as far as the program reads it:
`getHandle()`, `getType()`, `getName()`, `getParentHandle()`.  A `MegaNode` is
a snapshot: it does not change when the remote tree does. -/
structure MegaNode where
  handle : Nat
  type : NodeType
  name : CStr
  parentHandle : Nat
deriving DecidableEq, Repr

/-- The requests `mv`, `rm` and `mkdir` hand to the api together with the
listener. -/
inductive Request
  | moveNode (n newParent : MegaNode)
  | renameNode (n : MegaNode) (newName : CStr)
  | remove (n : MegaNode)
  | createFolder (name : CStr) (parent : MegaNode)
deriving DecidableEq, Repr

/-- Error code `MegaError::API_OK`. -/
def API_OK : Int := 0

/-- Error code `MegaError::API_EACCESS`. -/
def API_EACCESS : Int := -11

/-- The `MegaApi` object, over a type `W` of states of the remote tree.  The
lookups read the state; `submit` is a request followed by `wait()` on its
listener: it yields the error code the listener holds afterwards and the state
the request leaves.

Every node pointer a lookup returns is an object of its own that the caller
owns: the program deletes each of them (`delete nodeToDelete`, `delete n`,
`delete tn`, and `delete tnParentNode` followed by a second lookup of the same
handle). -/
structure MegaApi (W : Type) where
  getNodeByHandle : W → Nat → Option MegaNode
  getChildNode : W → MegaNode → CStr → Option MegaNode
  getParentNode : W → MegaNode → Option MegaNode
  getInboxNode : W → Option MegaNode
  getRubbishNode : W → Option MegaNode
  getRootNode : W → Option MegaNode
  submit : W → Request → Int × W

/-- The globals `cwd` and `rootNode`. -/
structure Globals where
  cwd : Nat
  rootNode : Option MegaNode
deriving DecidableEq, Repr

/-! ## nodebypath (lines 1141-1356) -/

/-- What a call of `nodebypath` yields: the returned pointer (`none` is
`NULL`), whether that pointer is the global `rootNode` itself rather than an
object obtained from the api, and the strings stored through the `user` and
`namepart` arguments (`none`: nothing was stored). -/
structure Resolved where
  node : Option MegaNode
  shared : Bool
  user : Option CStr
  namepart : Option CStr
deriving DecidableEq, Repr

/-- The result `return NULL` with nothing stored. -/
def Resolved.null : Resolved := ⟨none, false, none, none⟩

/-- The loop `while (n && l < (int)c.size())` (lines 1317-1355), on the
components `c[l], c[l+1], ...` still to be read; `c[l]` is the last component
exactly when none follows it.  `wantName` says that `namepart` is not `NULL`,
`sh` that `n` is the global `rootNode`. -/
def walk {W : Type} (api : MegaApi W) (w : W) (wantName : Bool) :
    Option MegaNode → Bool → List CStr → Resolved
  | none, _, _ => Resolved.null
  | some n, sh, [] => ⟨some n, sh, none, none⟩
  | some n, sh, seg :: rest =>
    if seg = DOT then walk api w wantName (some n) sh rest
    else if seg = DOTDOT then walk api w wantName (api.getParentNode w n) false rest
    else if seg = [] then walk api w wantName (some n) sh rest
    else
      match api.getChildNode w n seg with
      | none =>
        if wantName = true ∧ rest = [] then ⟨some n, sh, none, some seg⟩
        else Resolved.null
      | some nn => walk api w wantName (some nn) false rest

/-- The function `nodebypath(ptr, user, namepart)`; `wantUser` and `wantName`
say which of the two pointers is not `NULL`. -/
def nodebypath {W : Type} (api : MegaApi W) (w : W) (g : Globals) (ptr : CStr)
    (wantUser wantName : Bool) : Resolved :=
  match splitPath ptr with
  | none => Resolved.null
  | some st =>
    if st.l ≠ 0 then Resolved.null
    else if st.remote = true then
      if st.c.length = 2 ∧ st.c.getD 1 [] = [] then
        ⟨none, false, if wantUser = true then some (st.c.getD 0 []) else none, none⟩
      else Resolved.null
    else if 1 < st.c.length ∧ st.c.getD 0 [] = [] then
      if 2 < st.c.length ∧ st.c.getD 1 [] = [] then
        if st.c.getD 2 [] = IN then
          walk api w wantName (api.getInboxNode w) false (st.c.drop 3)
        else if st.c.getD 2 [] = BIN then
          walk api w wantName (api.getRubbishNode w) false (st.c.drop 3)
        else Resolved.null
      else walk api w wantName g.rootNode true (st.c.drop 1)
    else walk api w wantName (api.getNodeByHandle w g.cwd) false st.c

/-! ## The command `mv` (lines 2390-2502) -/

/-- The lines a command prints or logs. -/
inductive Output
  | noSuchFileOrDirectory (path : CStr)
  | noSuchDirectory (path : CStr)
  | notADirectory (path : CStr)
  | wontRename (src dst : CStr) (code : Int)
  | couldntMove (src dst : CStr) (code : Int)
  | createFolderAccessDenied
  | createFolderFailed (code : Int)
  | couldntGetCreated (name : CStr)
  | folderAlreadyExists (path : CStr)
  | mkdirUsage
  | createFolderTookTooLong
  | deleteTookTooLong
  | deleteAccessDenied
  | deleteFailed (code : Int)
  | notLoggedIn
  | nodesNotFetched
  | fetchTookTooLong
  | fetchFailed (code : Int)
  | loginTookTooLong
  | loginFailed (code : Int)
  | loginCorrect
  | logoutTookTooLong
  | logoutFailed (code : Int)
  | versionInfo
deriving DecidableEq, Repr

/-- The run of a command so far: the state of the remote tree, the requests
issued in order, and the lines written in order. -/
structure Exec (W : Type) where
  world : W
  issued : List Request
  out : List Output

/-- Write one line. -/
def Exec.print {W : Type} (e : Exec W) (o : Output) : Exec W :=
  { e with out := e.out ++ [o] }

/-- Issue a request and wait for its completion; the code is the one
`megaCmdListener->getError()->getErrorCode()` gives afterwards. -/
def Exec.issue {W : Type} (api : MegaApi W) (e : Exec W) (r : Request) : Int × Exec W :=
  ((api.submit e.world r).1,
    { world := (api.submit e.world r).2, issued := e.issued ++ [r], out := e.out })

/-- The body of `mv` for `words.size() > 2`, with `src = words[1]` and
`dst = words[2]`.  The comparison `n != tn` is between pointers: the two are
equal only when both calls of `nodebypath` returned the global `rootNode`. -/
def mv {W : Type} (api : MegaApi W) (g : Globals) (w : W) (src dst : CStr) : Exec W :=
  let e0 : Exec W := ⟨w, [], []⟩
  let rn := nodebypath api w g src false false
  match rn.node with
  | none => e0.print (.noSuchFileOrDirectory src)
  | some n =>
    let rt := nodebypath api w g dst false true
    match rt.node with
    | none => e0.print (.noSuchDirectory dst)
    | some tn =>
      let newname := rt.namepart.getD []
      if newname ≠ [] then
        if tn.type = .TYPE_FILE then e0.print (.notADirectory dst)
        else
          let r1 := e0.issue api (.moveNode n tn)
          if r1.1 = API_OK then (r1.2.issue api (.renameNode n newname)).2
          else r1.2.print (.wontRename n.name tn.name r1.1)
      else if tn.type = .TYPE_FILE then
        match api.getNodeByHandle w tn.parentHandle with
        | none => e0
        | some tnParentNode =>
          if tn.parentHandle = 0 then e0
          else
            let r1 := e0.issue api (.moveNode n tnParentNode)
            let name_to_replace := tn.name
            let r2 :=
              if ¬ (rn.shared = true ∧ rt.shared = true) then
                let r := r1.2.issue api (.remove tn)
                if r.1 ≠ API_OK then (r.1, r.2.print (.couldntMove n.name tn.name r.1))
                else r
              else r1
            if r2.1 = API_OK then
              if name_to_replace = n.name then
                (r2.2.issue api (.renameNode n name_to_replace)).2
              else r2.2
            else r2.2.print (.wontRename n.name tn.name r2.1)
      else (e0.issue api (.moveNode n tn)).2

/-! ## A concrete node store -/

/-- Modelled from the spec: the state of the remote account is not in the
program text.  It is the handle-indexed node store of the external interfaces
(a list of live nodes), together with the error codes the next requests will
complete with (`API_OK` once the list is used up). -/
structure Sim where
  nodes : List MegaNode
  replies : List Int
deriving DecidableEq, Repr

/-- Modelled from the spec: what a request that completes with `API_OK` does to
the node list.  `moveNode` sets the parent handle of the node, `renameNode` its
name, `remove` deletes the node, `createFolder` adds a folder with an unused
handle under the parent. -/
def Sim.apply (nodes : List MegaNode) : Request → List MegaNode
  | .moveNode n t =>
    nodes.map fun m => if m.handle = n.handle then { m with parentHandle := t.handle } else m
  | .renameNode n name =>
    nodes.map fun m => if m.handle = n.handle then { m with name := name } else m
  | .remove n => nodes.filter fun m => decide (m.handle ≠ n.handle)
  | .createFolder name p =>
    nodes ++ [⟨(nodes.map MegaNode.handle).foldr max 0 + 1, .TYPE_FOLDER, name, p.handle⟩]

/-- Modelled from the spec: a request takes the next error code; the node list
changes only when that code is `API_OK`. -/
def Sim.submit (w : Sim) (r : Request) : Int × Sim :=
  match w.replies with
  | [] => (API_OK, ⟨Sim.apply w.nodes r, []⟩)
  | code :: rest =>
    if code = API_OK then (code, ⟨Sim.apply w.nodes r, rest⟩) else (code, ⟨w.nodes, rest⟩)

/-- Modelled from the spec: the lookups `getNodeByHandle`, `getChildNode`
(exact name among the direct children, first match), `getParentNode` and the
three root nodes, over the node list. -/
def simApi : MegaApi Sim where
  getNodeByHandle w h := w.nodes.find? fun m => decide (m.handle = h)
  getChildNode w p name :=
    w.nodes.find? fun m => decide (m.parentHandle = p.handle ∧ m.name = name)
  getParentNode w n := w.nodes.find? fun m => decide (m.handle = n.parentHandle)
  getInboxNode w := w.nodes.find? fun m => decide (m.type = .TYPE_INCOMING)
  getRubbishNode w := w.nodes.find? fun m => decide (m.type = .TYPE_RUBBISH)
  getRootNode w := w.nodes.find? fun m => decide (m.type = .TYPE_ROOT)
  submit := Sim.submit

/-- The handle `UNDEF`. -/
def UNDEF : Nat := 2 ^ 64 - 1

/-- An account used in the examples: the root `/` (handle 1) holds the folders
`a` (2) and `b` (3); `a` holds the files `f` (4) and `g` (5).  The inbox is 6
and the rubbish bin 7. -/
def demoNodes : List MegaNode :=
  [ ⟨1, .TYPE_ROOT, [], UNDEF⟩,
    ⟨2, .TYPE_FOLDER, [97], 1⟩,
    ⟨3, .TYPE_FOLDER, [98], 1⟩,
    ⟨4, .TYPE_FILE, [102], 2⟩,
    ⟨5, .TYPE_FILE, [103], 2⟩,
    ⟨6, .TYPE_INCOMING, [], UNDEF⟩,
    ⟨7, .TYPE_RUBBISH, [], UNDEF⟩ ]

/-- The globals after login to the example account, with `cwd` at folder `a`. -/
def demoGlobals : Globals := ⟨2, some ⟨1, .TYPE_ROOT, [], UNDEF⟩⟩

/-! ## The start of the walk -/

/-- Lines 1273-1315 of `nodebypath`, for a local path with components `c`: the
node the walk starts from, whether that pointer is the global `rootNode`, and
the number of components already consumed (the value of `l`); `none` is the
`return NULL` taken when the third component of a path beginning with `//` is
neither `in` nor `bin`. -/
def startNode {W : Type} (api : MegaApi W) (w : W) (g : Globals) (c : List CStr) :
    Option (Option MegaNode × Bool × Nat) :=
  if 1 < c.length ∧ c.getD 0 [] = [] then
    if 2 < c.length ∧ c.getD 1 [] = [] then
      if c.getD 2 [] = IN then some (api.getInboxNode w, false, 3)
      else if c.getD 2 [] = BIN then some (api.getRubbishNode w, false, 3)
      else none
    else some (g.rootNode, true, 1)
  else some (api.getNodeByHandle w g.cwd, false, 0)

/-! ## The command `mkdir` (lines 3240-3311) -/

/-- The function `actUponCreateFolder(srl)` with its default `timeout` of `0`,
after `srl->wait()`: from the error code of the finished request, the value
returned and the line logged. -/
def actUponCreateFolder {W : Type} (e : Exec W) (code : Int) : Int × Exec W :=
  if code = API_OK then (0, e)
  else if code = API_EACCESS then (2, e.print .createFolderAccessDenied)
  else (2, e.print (.createFolderFailed code))

/-- The passes of the loop `while (rest.length())` over `rest`: each pass cuts
`newfoldername = rest.substr(0, possep)` at the first `/` of `rest` and sets
`lastleave` when `rest` has no `/`; the next pass runs on the text after that
`/`, and there is none when that text is empty.  `acc` is the text read since
the last cut. -/
def mkdirPasses (acc : CStr) : CStr → List (CStr × Bool)
  | [] => if acc = [] then [] else [(acc, true)]
  | b :: rest =>
    if b = SLASH then (acc, false) :: mkdirPasses [] rest
    else mkdirPasses (acc ++ [b]) rest

/-- The body of the loop of `mkdir`, pass by pass; `path` is `words[1]`.  The
loop ends at the `break` after a failed re-fetch, at the `break` of the pass
with `lastleave`, or when no text is left. -/
def mkdirLoop {W : Type} (api : MegaApi W) (path : CStr) :
    Exec W → MegaNode → List (CStr × Bool) → Exec W
  | e, _, [] => e
  | e, currentnode, (newfoldername, lastleave) :: more =>
    if newfoldername ≠ [] then
      match api.getChildNode e.world currentnode newfoldername with
      | none =>
        let r := e.issue api (.createFolder newfoldername currentnode)
        let e1 := (actUponCreateFolder r.2 r.1).2
        match api.getChildNode e1.world currentnode newfoldername with
        | none => e1.print (.couldntGetCreated newfoldername)
        | some nn => if lastleave = true then e1 else mkdirLoop api path e1 nn more
      | some existing_node =>
        if lastleave = true then e.print (.folderAlreadyExists path)
        else mkdirLoop api path e existing_node more
    else if lastleave = true then e
    else mkdirLoop api path e currentnode more

/-- The body of `mkdir` for `words.size() > 1`, with `path = words[1]`. -/
def mkdir {W : Type} (api : MegaApi W) (g : Globals) (w : W) (path : CStr) : Exec W :=
  match api.getNodeByHandle w g.cwd with
  | none => Exec.print ⟨w, [], []⟩ .mkdirUsage
  | some currentnode => mkdirLoop api path ⟨w, [], []⟩ currentnode (mkdirPasses [] path)

/-- The state of the remote tree after the requests have completed in order. -/
def replay {W : Type} (api : MegaApi W) (w : W) (reqs : List Request) : W :=
  reqs.foldl (fun v r => (api.submit v r).2) w

/-- The leaf names `xs` are created one after the other, starting under `cur`
in state `w`: each is absent when it is reached, and the lookup that follows
its `createFolder` finds the folder listed for it in `folders`. -/
def createsAll {W : Type} (api : MegaApi W) : W → MegaNode → List CStr → List MegaNode → Bool
  | _, _, [], [] => true
  | w, cur, x :: xs, f :: fs =>
    decide (api.getChildNode w cur x = none) &&
      decide (api.getChildNode (api.submit w (.createFolder x cur)).2 cur x = some f) &&
      createsAll api (api.submit w (.createFolder x cur)).2 f xs fs
  | _, _, _, _ => false

/-- Leaf names joined by `/`. -/
def joinLeaves : List CStr → CStr
  | [] => []
  | [x] => x
  | x :: y :: r => x ++ SLASH :: joinLeaves (y :: r)

/-- The leaf names of a path that are not empty, in order. -/
def leafNames (path : CStr) : List CStr :=
  ((mkdirPasses [] path).map Prod.fst).filter (fun x => decide (x ≠ []))

/-- The path with its empty leaves removed: no leading, doubled or trailing
`/` is left. -/
def dropEmptyLeaves (path : CStr) : CStr := joinLeaves (leafNames path)

/-- The requests and the final state of the directory creation described for
the non-empty leaf names: an existing child is descended into, a missing one is
created and fetched again, and a failed re-fetch ends the run. -/
def mkdirRun {W : Type} (api : MegaApi W) : W → MegaNode → List CStr → List Request × W
  | w, _, [] => ([], w)
  | w, cur, x :: xs =>
    match api.getChildNode w cur x with
    | some ex => mkdirRun api w ex xs
    | none =>
      match api.getChildNode (api.submit w (.createFolder x cur)).2 cur x with
      | none => ([.createFolder x cur], (api.submit w (.createFolder x cur)).2)
      | some nn =>
        (.createFolder x cur :: (mkdirRun api (api.submit w (.createFolder x cur)).2 nn xs).1,
          (mkdirRun api (api.submit w (.createFolder x cur)).2 nn xs).2)

/-- The flag `lastleave` is set in the last pass only. -/
def lastOnly : List (CStr × Bool) → Prop
  | [] => True
  | [_] => True
  | p :: q :: r => p.2 = false ∧ lastOnly (q :: r)

/-! ## The wait helpers (lines 1914-2064) -/

/-- Error code `MegaError::API_ENOENT`. -/
def API_ENOENT : Int := -9

/-- A `SynchronousRequestListener` that a request has been handed to: `error`
is the code `getError()->getErrorCode()` gives once the request has finished,
and `trywait ms` is the value of `trywait(ms)`, non-zero when the wait of `ms`
milliseconds expires before the request has finished. -/
structure Listener where
  error : Int
  trywait : Int → Int

/-- The globals `cwd`, `rootNode` and `session`. -/
structure SessionState where
  globals : Globals
  session : Option CStr
deriving DecidableEq, Repr

/-- The function `actUponFetchNodes(srl, timeout)`, in the state `w` of the
tree the finished request leaves.  The source takes the handle of the node
`getRootNode()` returns; when there is none the model leaves `cwd` as it is. -/
def actUponFetchNodes {W : Type} (api : MegaApi W) (w : W) (srl : Listener) (timeout : Int)
    (st : SessionState) : SessionState × List Output :=
  let body : SessionState × List Output :=
    if srl.error = API_OK then
      let rootNode := api.getRootNode w
      let cwdNode := if st.globals.cwd = UNDEF then none else api.getNodeByHandle w st.globals.cwd
      let cwd :=
        if st.globals.cwd = UNDEF ∨ cwdNode = none then
          match rootNode with
          | some r => r.handle
          | none => st.globals.cwd
        else st.globals.cwd
      ({ st with globals := ⟨cwd, rootNode⟩ }, [])
    else (st, [.fetchFailed srl.error])
  if timeout = -1 then body
  else if srl.trywait timeout ≠ 0 then (st, [.fetchTookTooLong])
  else body

/-- What `actUponLogin` leaves: the globals, whether `fetchNodes` was issued,
and the lines logged. -/
structure LoginRun where
  state : SessionState
  fetchIssued : Bool
  out : List Output
deriving DecidableEq, Repr

/-- The function `actUponLogin(srl, timeout)`: `srl` is the listener of the
login request, `fetch` the same listener once `fetchNodes` has been handed to
it, `token` the value of `dumpSession()`. -/
def actUponLogin {W : Type} (api : MegaApi W) (w : W) (srl fetch : Listener)
    (token : Option CStr) (timeout : Int) (st : SessionState) : LoginRun :=
  let body : LoginRun :=
    if srl.error = API_ENOENT then ⟨st, false, [.loginFailed srl.error]⟩
    else
      let r := actUponFetchNodes api w fetch timeout { st with session := token }
      ⟨r.1, true, .loginCorrect :: r.2⟩
  if timeout = -1 then body
  else if srl.trywait timeout ≠ 0 then ⟨st, false, [.loginTookTooLong]⟩
  else body

/-- The function `actUponLogout(srl, timeout)`. -/
def actUponLogout (srl : Listener) (timeout : Int) (st : SessionState) :
    SessionState × List Output :=
  let body : SessionState × List Output :=
    if srl.error = API_OK then (⟨⟨UNDEF, none⟩, none⟩, [])
    else (st, [.logoutFailed srl.error])
  if timeout = 0 then body
  else if srl.trywait timeout ≠ 0 then (st, [.logoutTookTooLong])
  else body

/-- The function `actUponCreateFolder(srl, timeout)` for any `timeout`: the
value returned and the lines logged. -/
def actUponCreateFolderT {W : Type} (srl : Listener) (timeout : Int) (e : Exec W) :
    Int × Exec W :=
  let body : Int × Exec W :=
    if srl.error = API_OK then (0, e)
    else if srl.error = API_EACCESS then (2, e.print .createFolderAccessDenied)
    else (2, e.print (.createFolderFailed srl.error))
  if timeout = 0 then body
  else if srl.trywait timeout ≠ 0 then (1, e.print .createFolderTookTooLong)
  else body

/-- The function `actUponDeleteNode(srl, timeout)`: the value returned and the
lines logged. -/
def actUponDeleteNode {W : Type} (srl : Listener) (timeout : Int) (e : Exec W) :
    Int × Exec W :=
  let body : Int × Exec W :=
    if srl.error = API_OK then (0, e)
    else if srl.error = API_EACCESS then (2, e.print .deleteAccessDenied)
    else (2, e.print (.deleteFailed srl.error))
  if timeout = 0 then body
  else if srl.trywait timeout ≠ 0 then (1, e.print .deleteTookTooLong)
  else body

/-! ## The commands `rm`, `cd` and `version` -/

/-- The call `nodebypath(ptr)` takes the branch `n = rootNode` (line 1303): the
path is local and begins with `/` but not with `//`.  On that branch the
pointer `n` is the global `rootNode` itself; the walk hands it to the api at
the first component that is a name or `..`, and returns it when there is no
such component. -/
def startsAtRootNode (ptr : CStr) : Bool :=
  match splitPath ptr with
  | none => false
  | some st =>
    decide (st.l = 0) && !st.remote &&
      decide (1 < st.c.length ∧ st.c.getD 0 [] = []) &&
      !decide (2 < st.c.length ∧ st.c.getD 1 [] = [])

/-- The flag `rootDeleted` says that `delete` has been applied to the object the
global `rootNode` points to, the global still holding its address.  Resolving
`ptr` and using the node found then reads that deleted object when `rootNode`
is not `NULL` and the path starts at `rootNode`: the C++ program has no
defined behaviour from there on. -/
def readsDeletedRoot (g : Globals) (rootDeleted : Bool) (ptr : CStr) : Bool :=
  rootDeleted && g.rootNode.isSome && startsAtRootNode ptr

/-- The loop of `rm` over `words[1], words[2], ...` (lines 2370-2381): each
path is resolved in the state the requests before it have left; a node found
is removed with `actUponDeleteNode(megaCmdListener)`, whose `timeout` is the
default `0`, and then `delete nodeToDelete` is applied to the object
`nodebypath` returned (line 2378), which is the object of the global
`rootNode` when the result is `shared`.  The result is the run and the flag
`rootDeleted` afterwards; `none` says that the loop has read a deleted object
and has no defined behaviour. -/
def rmLoop {W : Type} (api : MegaApi W) (g : Globals) :
    Bool → Exec W → List CStr → Option (Exec W × Bool)
  | rootDeleted, e, [] => some (e, rootDeleted)
  | rootDeleted, e, p :: ps =>
    if readsDeletedRoot g rootDeleted p = true then none
    else
      match (nodebypath api e.world g p false false).node with
      | some nodeToDelete =>
        let r := e.issue api (.remove nodeToDelete)
        rmLoop api g (rootDeleted || (nodebypath api e.world g p false false).shared)
          (actUponDeleteNode ⟨r.1, fun _ => 0⟩ 0 r.2).2 ps
      | none => rmLoop api g rootDeleted e ps

/-- The body of `rm` for `words.size() > 1`; `paths` is `words` without
`words[0]`, `rootDeleted` the state of the object of `rootNode` when the
command starts. -/
def rm {W : Type} (api : MegaApi W) (g : Globals) (rootDeleted : Bool) (w : W)
    (paths : List CStr) : Option (Exec W × Bool) :=
  rmLoop api g rootDeleted ⟨w, [], []⟩ paths

/-- What `cd` leaves: the globals `cwd` and `rootNode` (the pointer), whether
the object of `rootNode` has been deleted, and the lines logged. -/
structure CdRun where
  globals : Globals
  rootDeleted : Bool
  out : List Output
deriving DecidableEq, Repr

/-- The command `cd` (lines 2336-2365): `loggedIn` is the value of
`api->isLoggedIn()`, `args` is `words` without `words[0]`, `rootDeleted` the
state of the object of `rootNode` when the command starts.  After a path that
resolves, `delete n` is applied to the object `nodebypath` returned (line
2351), which is the object of the global `rootNode` when the result is
`shared`; the pointer `rootNode` keeps its value.  `none` says that the
command has read a deleted object and has no defined behaviour. -/
def cd {W : Type} (api : MegaApi W) (w : W) (loggedIn : Bool) (g : Globals)
    (rootDeleted : Bool) (args : List CStr) : Option CdRun :=
  if loggedIn = false then some ⟨g, rootDeleted, [.notLoggedIn]⟩
  else
    match args with
    | path :: _ =>
      if readsDeletedRoot g rootDeleted path = true then none
      else
        match (nodebypath api w g path false false).node with
        | some n =>
          if n.type = .TYPE_FILE then
            some ⟨g, rootDeleted || (nodebypath api w g path false false).shared,
              [.notADirectory path]⟩
          else
            some ⟨{ g with cwd := n.handle },
              rootDeleted || (nodebypath api w g path false false).shared, []⟩
        | none => some ⟨g, rootDeleted, [.noSuchFileOrDirectory path]⟩
    | [] =>
      match g.rootNode with
      | none => some ⟨g, rootDeleted, [.nodesNotFetched]⟩
      | some r =>
        if rootDeleted = true then none
        else some ⟨{ g with cwd := r.handle }, rootDeleted, []⟩

/-- The command `version` (lines 4101-4147): the lines printed, and the
assignment `cwd = UNDEF` at line 4144. -/
def version (g : Globals) : Globals × List Output :=
  ({ g with cwd := UNDEF }, [.versionInfo])

/-! ## The word splitter of `process_line` (lines 2184-2235) -/

/-- Where the splitter is: skipping blank space, inside a regular argument,
or inside a quoted argument. -/
inductive WordMode
  | blank
  | plain
  | quoted
deriving DecidableEq, Repr

/-- The statement `words[words.size() - 1].append(wptr, ptr - wptr)`. -/
def appendLast (words : List CStr) (pend : CStr) : List CStr :=
  match words.reverse with
  | [] => []
  | last :: before => (before.reverse) ++ [last ++ pend]

/-- The loop that splits the line into words.  `words` are the words so far,
`pend` is the text between `wptr` and `ptr`, the last argument the text from
`ptr` on.  Blank bytes are those with `*ptr > 0 && *ptr <= ' '`; a regular
argument runs while `(unsigned char) *ptr > ' '`; in a quoted argument a `"`, a
backslash or the terminator appends the pending text, the `"` and the
terminator end the argument, and after a backslash `wptr = ptr - 1` points at
the backslash itself while `ptr` is at the byte after it. -/
def splitWords : WordMode → List CStr → CStr → CStr → List CStr
  | .blank, words, _, [] => words
  | .blank, words, _, b :: rest =>
    if b = 0 then words
    else if b ≤ 32 then splitWords .blank words [] rest
    else if b = 34 then splitWords .quoted (words ++ [[]]) [] rest
    else splitWords .plain words [b] rest
  | .plain, words, pend, [] => words ++ [pend]
  | .plain, words, pend, b :: rest =>
    if 32 < b then splitWords .plain words (pend ++ [b]) rest
    else if b = 0 then words ++ [pend]
    else splitWords .blank (words ++ [pend]) [] rest
  | .quoted, words, pend, [] => appendLast words pend
  | .quoted, words, pend, b :: rest =>
    if b = 0 then appendLast words pend
    else if b = 34 then splitWords .blank (appendLast words pend) [] rest
    else if b = BACKSLASH then splitWords .quoted (appendLast words pend) [BACKSLASH] rest
    else splitWords .quoted words (pend ++ [b]) rest

/-- The words of a command line. -/
def splitLine (l : CStr) : List CStr := splitWords .blank [] [] l

/-! ## nodepath (lines 1528-1590) -/

/-- The text `"UNKNOWN"`. -/
def UNKNOWN : CStr := [85, 78, 75, 78, 79, 87, 78]

/-- The loop `while (n)` of `nodepath`, with a bound on the number of passes
(`none`: the bound is used up).  `isInShare n` is `n->isInShare()` and
`getUserInSharedNode n` the result of the function of that name (`none` is
`NULL`). -/
def nodepathLoop {W : Type} (api : MegaApi W) (w : W) (isInShare : MegaNode → Bool)
    (getUserInSharedNode : MegaNode → Option CStr) :
    Nat → Option MegaNode → CStr → Option CStr
  | _, none, path => some path
  | 0, some _, _ => none
  | fuel + 1, some n, path =>
    match n.type with
    | .TYPE_FOLDER =>
      if isInShare n = true then
        match getUserInSharedNode n with
        | some suser => some (suser ++ COLON :: (n.name ++ path))
        | none => some (UNKNOWN ++ COLON :: (n.name ++ path))
      else
        nodepathLoop api w isInShare getUserInSharedNode fuel
          (api.getNodeByHandle w n.parentHandle) (SLASH :: (n.name ++ path))
    | .TYPE_INCOMING => some (SLASH :: SLASH :: IN ++ path)
    | .TYPE_ROOT => some path
    | .TYPE_RUBBISH => some (SLASH :: SLASH :: BIN ++ path)
    | .TYPE_UNKNOWN =>
      nodepathLoop api w isInShare getUserInSharedNode fuel
        (api.getNodeByHandle w n.parentHandle) (SLASH :: (n.name ++ path))
    | .TYPE_FILE =>
      nodepathLoop api w isInShare getUserInSharedNode fuel
        (api.getNodeByHandle w n.parentHandle) (SLASH :: (n.name ++ path))

/-- The function `nodepath(h, path)`; the result is the text left in `*path`,
or `none` when the loop has not ended within `fuel` passes. -/
def nodepath {W : Type} (api : MegaApi W) (w : W) (g : Globals) (isInShare : MegaNode → Bool)
    (getUserInSharedNode : MegaNode → Option CStr) (fuel : Nat) (h : Nat) : Option CStr :=
  match g.rootNode with
  | some r =>
    if h = r.handle then some [SLASH]
    else nodepathLoop api w isInShare getUserInSharedNode fuel (api.getNodeByHandle w h) []
  | none => nodepathLoop api w isInShare getUserInSharedNode fuel (api.getNodeByHandle w h) []

/-- The leaf names, each preceded by `/`. -/
def slashPath : List CStr → CStr
  | [] => []
  | x :: xs => SLASH :: (x ++ slashPath xs)

/-- What a name on the chain has to be: correctly encoded, not empty, not `.`
or `..`, without `/`, `:` and backslash. -/
def plainName (x : CStr) : Bool :=
  utf8Valid x && decide (x ≠ []) && decide (x ≠ DOT) && decide (x ≠ DOTDOT) && decide (noSpecial x)

/-- The nodes `down` lead from `p` downwards, each the child of the one
before: each is a file or a folder that is not an inbound share, has a plain
name, has the node before it as its parent, and is the child its parent has
under that name. -/
def descends {W : Type} (api : MegaApi W) (w : W) (isInShare : MegaNode → Bool) :
    MegaNode → List MegaNode → Bool
  | _, [] => true
  | p, m :: rest =>
    decide (m.type = .TYPE_FILE ∨ m.type = .TYPE_FOLDER) && !isInShare m && plainName m.name &&
      decide (api.getNodeByHandle w m.parentHandle = some p) &&
      decide (api.getChildNode w p m.name = some m) &&
      descends api w isInShare m rest

/-- The node `top` is the account root held in `rootNode`, the Inbox node or
the Rubbish node. -/
def isTop {W : Type} (api : MegaApi W) (w : W) (g : Globals) (top : MegaNode) : Bool :=
  (decide (top.type = .TYPE_ROOT) && decide (g.rootNode = some top)) ||
    (decide (top.type = .TYPE_INCOMING) && decide (api.getInboxNode w = some top)) ||
    (decide (top.type = .TYPE_RUBBISH) && decide (api.getRubbishNode w = some top))

/-- What `nodepath` puts in front of the path when the loop arrives at a node
of the given type and returns: `//in` at the Inbox node, `//bin` at the
Rubbish node, nothing at the account root. -/
def rootPrefix : NodeType → CStr
  | .TYPE_INCOMING => SLASH :: SLASH :: IN
  | .TYPE_RUBBISH => SLASH :: SLASH :: BIN
  | _ => []

/-! ## The splitter on text without escapes -/

theorem leadSkip_cont (b : Nat) (h1 : 0x80 ≤ b) (h2 : b ≤ 0xBF) : leadSkip b = 0 := by
  interval_cases b <;> rfl

theorem leadSkip_lead (b k : Nat) (h : contBytes b = some k) :
    128 ≤ b ∧ leadSkip b + 1 = k := by
  unfold contBytes at h
  split_ifs at h with h1 h2 h3 h4 h5
  all_goals
    simp only [Option.some.injEq] at h
    subst h
  · obtain ⟨a1, a2⟩ := h1
    interval_cases b <;> exact ⟨by omega, rfl⟩
  · obtain ⟨a1, a2⟩ := h2
    interval_cases b <;> exact ⟨by omega, rfl⟩
  · obtain ⟨a1, a2⟩ := h3
    interval_cases b <;> exact ⟨by omega, rfl⟩
  · obtain ⟨a1, a2⟩ := h4
    interval_cases b <;> exact ⟨by omega, rfl⟩
  · obtain ⟨a1, a2⟩ := h5
    interval_cases b <;> exact ⟨by omega, rfl⟩

theorem splitLoop_skip (l : Nat) (s pend : CStr) (c : List CStr) (remote : Bool)
    (b : Nat) (rest : CStr) (hb : b ≠ 0) (hl : l ≠ 0) :
    splitLoop l s pend c remote (b :: rest) = splitLoop (l - 1) s (pend ++ [b]) c remote rest := by
  rw [splitLoop.eq_def]; simp [hb, hl]

theorem splitLoop_high (s pend : CStr) (c : List CStr) (remote : Bool)
    (b : Nat) (rest : CStr) (hb : 128 ≤ b) :
    splitLoop 0 s pend c remote (b :: rest)
      = splitLoop (leadSkip b) s (pend ++ [b]) c remote rest := by
  have hb0 : b ≠ 0 := by omega
  rw [splitLoop.eq_def]; simp [hb0, hb]

theorem splitLoop_ascii (s pend : CStr) (c : List CStr) (remote : Bool)
    (b : Nat) (rest : CStr) (h0 : b ≠ 0) (h1 : b < 128)
    (h2 : b ≠ BACKSLASH) (h3 : b ≠ COLON) (h4 : b ≠ SLASH) :
    splitLoop 0 s pend c remote (b :: rest) = splitLoop 0 s (pend ++ [b]) c remote rest := by
  have h5 : ¬ 128 ≤ b := by omega
  rw [splitLoop.eq_def]; simp [h0, h2, h3, h4, h5]

theorem splitLoop_slash (s pend : CStr) (c : List CStr) (remote : Bool) (rest : CStr) :
    splitLoop 0 s pend c remote (SLASH :: rest)
      = splitLoop 0 [] [] (c ++ [s ++ pend]) remote rest := by
  rw [splitLoop.eq_def]; simp [SLASH, BACKSLASH, COLON]

theorem splitLoop_colon (s pend : CStr) (c : List CStr) (remote : Bool) (rest : CStr) :
    splitLoop 0 s pend c remote (COLON :: rest)
      = if c ≠ [] then none else splitLoop 0 [] [] (c ++ [s ++ pend]) true rest := by
  rw [splitLoop.eq_def]; simp [BACKSLASH, COLON]

/-- Text without `\`, `:` and `/` that completes the pending UTF-8 form is
passed over by the splitting loop and joins the pending text. -/
theorem splitLoop_plain (u : CStr) :
    ∀ (k l : Nat) (s pend : CStr) (c : List CStr) (remote : Bool) (rest : CStr),
      utf8From k u = true → l ≤ k - 1 → noSpecial u →
      splitLoop l s pend c remote (u ++ rest) = splitLoop 0 s (pend ++ u) c remote rest := by
  induction u with
  | nil =>
    intro k l s pend c remote rest hk hl _
    have hk0 : k = 0 := by simpa [utf8From] using hk
    have hl0 : l = 0 := by omega
    simp [hl0]
  | cons b u ih =>
    intro k l s pend c remote rest hk hl hs
    have hsu : noSpecial u := fun x hx => hs x (List.mem_cons_of_mem _ hx)
    have hsb := hs b (List.mem_cons_self _ _)
    cases k with
    | zero =>
      have hl0 : l = 0 := by omega
      subst hl0
      rw [utf8From] at hk
      split_ifs at hk with hascii
      · rw [List.cons_append, splitLoop_ascii _ _ _ _ _ _ (by omega) (by omega) hsb.1 hsb.2.1 hsb.2.2,
          ih 0 0 _ _ _ _ _ hk (by omega) hsu]
        simp
      · cases hcb : contBytes b with
        | none => simp [hcb] at hk
        | some k1 =>
          simp only [hcb] at hk
          obtain ⟨hb, hlead⟩ := leadSkip_lead b k1 hcb
          rw [List.cons_append, splitLoop_high _ _ _ _ _ _ hb,
            ih k1 (leadSkip b) _ _ _ _ _ hk (by omega) hsu]
          simp
    | succ k1 =>
      rw [utf8From] at hk
      simp only [Bool.and_eq_true, decide_eq_true_eq] at hk
      obtain ⟨⟨hb1, hb2⟩, hk⟩ := hk
      by_cases hl0 : l = 0
      · subst hl0
        rw [List.cons_append, splitLoop_high _ _ _ _ _ _ (by omega), leadSkip_cont b hb1 hb2,
          ih k1 0 _ _ _ _ _ hk (by omega) hsu]
        simp
      · rw [List.cons_append, splitLoop_skip _ _ _ _ _ _ _ (by omega) hl0,
          ih k1 (l - 1) _ _ _ _ _ hk (by omega) hsu]
        simp

theorem splitLoop_nil (l : Nat) (s pend : CStr) (c : List CStr) (remote : Bool) :
    splitLoop l s pend c remote [] = some (splitAtEnd l s pend c remote) := by
  rw [splitLoop.eq_def]

theorem splitLoop_escape (s pend : CStr) (c : List CStr) (remote : Bool)
    (e f : Nat) (rest : CStr) (he : e ≠ 0) (hf : f ≠ 0) :
    splitLoop 0 s pend c remote (BACKSLASH :: e :: f :: rest)
      = splitLoop 0 (s ++ pend) [e, f] c remote rest := by
  rw [splitLoop.eq_def]; simp [BACKSLASH, he, hf]

/-- The first byte of correctly encoded text is not `0`, and the text after it
completes the form that byte opens. -/
theorem utf8From_cons (f : Nat) (u : CStr) (h : utf8From 0 (f :: u) = true) :
    f ≠ 0 ∧ ∃ k, utf8From k u = true := by
  rw [utf8From] at h
  split_ifs at h with hascii
  · exact ⟨by omega, 0, h⟩
  · cases hcb : contBytes f with
    | none => simp [hcb] at h
    | some k =>
      simp only [hcb] at h
      exact ⟨by have := (leadSkip_lead f k hcb).1; omega, k, h⟩

/-- Once a component has been pushed, a later `:` makes the loop return
`NULL`. -/
theorem splitLoop_colon_later (u : CStr) :
    ∀ (k l : Nat) (s pend : CStr) (c : List CStr) (remote : Bool),
      utf8From k u = true → l ≤ k - 1 → (∀ b ∈ u, b ≠ BACKSLASH) → COLON ∈ u → c ≠ [] →
      splitLoop l s pend c remote u = none := by
  induction u with
  | nil => intro k l s pend c remote _ _ _ hmem; simp at hmem
  | cons b u ih =>
    intro k l s pend c remote hk hl hbs hmem hc
    have hbsu : ∀ x ∈ u, x ≠ BACKSLASH := fun x hx => hbs x (List.mem_cons_of_mem _ hx)
    have hbsb := hbs b (List.mem_cons_self _ _)
    cases k with
    | zero =>
      have hl0 : l = 0 := by omega
      subst hl0
      rw [utf8From] at hk
      split_ifs at hk with hascii
      · by_cases h58 : b = COLON
        · subst h58
          rw [splitLoop_colon]; simp [hc]
        · have hmu : COLON ∈ u := by
            rcases List.mem_cons.1 hmem with h | h
            · exact absurd h.symm h58
            · exact h
          by_cases h47 : b = SLASH
          · subst h47
            rw [splitLoop_slash]
            exact ih 0 0 _ _ _ _ hk (by omega) hbsu hmu (by simp)
          · rw [splitLoop_ascii _ _ _ _ _ _ (by omega) (by omega) hbsb h58 h47]
            exact ih 0 0 _ _ _ _ hk (by omega) hbsu hmu hc
      · cases hcb : contBytes b with
        | none => simp [hcb] at hk
        | some k1 =>
          simp only [hcb] at hk
          obtain ⟨hb, hlead⟩ := leadSkip_lead b k1 hcb
          have hmu : COLON ∈ u := by
            rcases List.mem_cons.1 hmem with h | h
            · simp [COLON] at h; omega
            · exact h
          rw [splitLoop_high _ _ _ _ _ _ hb]
          exact ih k1 (leadSkip b) _ _ _ _ hk (by omega) hbsu hmu hc
    | succ k1 =>
      rw [utf8From] at hk
      simp only [Bool.and_eq_true, decide_eq_true_eq] at hk
      obtain ⟨⟨hb1, hb2⟩, hk⟩ := hk
      have hmu : COLON ∈ u := by
        rcases List.mem_cons.1 hmem with h | h
        · simp [COLON] at h; omega
        · exact h
      by_cases hl0 : l = 0
      · subst hl0
        rw [splitLoop_high _ _ _ _ _ _ (by omega), leadSkip_cont b hb1 hb2]
        exact ih k1 0 _ _ _ _ hk (by omega) hbsu hmu hc
      · rw [splitLoop_skip _ _ _ _ _ _ _ (by omega) hl0]
        exact ih k1 (l - 1) _ _ _ _ hk (by omega) hbsu hmu hc

/-- A `:` that follows a `/` or a `:` makes the loop return `NULL`, whatever
has been read before. -/
theorem splitLoop_sep_then_colon (x : CStr) :
    ∀ (k l : Nat) (s pend : CStr) (c : List CStr) (remote : Bool) (sep : Nat) (y z : CStr),
      (sep = SLASH ∨ sep = COLON) →
      utf8From k (x ++ sep :: (y ++ COLON :: z)) = true → l ≤ k - 1 →
      (∀ b ∈ x ++ sep :: (y ++ COLON :: z), b ≠ BACKSLASH) →
      splitLoop l s pend c remote (x ++ sep :: (y ++ COLON :: z)) = none := by
  induction x with
  | nil =>
    intro k l s pend c remote sep y z hsep hk hl hbs
    simp only [List.nil_append] at hk hbs ⊢
    have hbsu : ∀ b ∈ y ++ COLON :: z, b ≠ BACKSLASH :=
      fun b hb => hbs b (List.mem_cons_of_mem _ hb)
    have hmem : COLON ∈ y ++ COLON :: z := by simp
    cases k with
    | succ k1 =>
      rw [utf8From] at hk
      simp only [Bool.and_eq_true, decide_eq_true_eq] at hk
      rcases hsep with h | h <;> (subst h; simp [SLASH, COLON] at hk)
    | zero =>
      have hl0 : l = 0 := by omega
      subst hl0
      rw [utf8From] at hk
      have hascii : 1 ≤ sep ∧ sep ≤ 0x7F := by
        rcases hsep with h | h <;> (subst h; simp [SLASH, COLON])
      rw [if_pos hascii] at hk
      rcases hsep with h | h
      · subst h
        rw [splitLoop_slash]
        exact splitLoop_colon_later _ 0 0 _ _ _ _ hk (by omega) hbsu hmem (by simp)
      · subst h
        rw [splitLoop_colon]
        by_cases hc : c = []
        · simp only [hc, ne_eq, not_true_eq_false, if_false]
          exact splitLoop_colon_later _ 0 0 _ _ _ _ hk (by omega) hbsu hmem (by simp)
        · simp [hc]
  | cons b x ih =>
    intro k l s pend c remote sep y z hsep hk hl hbs
    simp only [List.cons_append] at hk hbs ⊢
    have hbsu : ∀ a ∈ x ++ sep :: (y ++ COLON :: z), a ≠ BACKSLASH :=
      fun a ha => hbs a (List.mem_cons_of_mem _ ha)
    have hbsb := hbs b (List.mem_cons_self _ _)
    cases k with
    | zero =>
      have hl0 : l = 0 := by omega
      subst hl0
      rw [utf8From] at hk
      split_ifs at hk with hascii
      · by_cases h58 : b = COLON
        · subst h58
          rw [splitLoop_colon]
          by_cases hc : c = []
          · simp only [hc, ne_eq, not_true_eq_false, if_false]
            exact ih 0 0 _ _ _ _ sep y z hsep hk (by omega) hbsu
          · simp [hc]
        · by_cases h47 : b = SLASH
          · subst h47
            rw [splitLoop_slash]
            exact ih 0 0 _ _ _ _ sep y z hsep hk (by omega) hbsu
          · rw [splitLoop_ascii _ _ _ _ _ _ (by omega) (by omega) hbsb h58 h47]
            exact ih 0 0 _ _ _ _ sep y z hsep hk (by omega) hbsu
      · cases hcb : contBytes b with
        | none => simp [hcb] at hk
        | some k1 =>
          simp only [hcb] at hk
          obtain ⟨hb, hlead⟩ := leadSkip_lead b k1 hcb
          rw [splitLoop_high _ _ _ _ _ _ hb]
          exact ih k1 (leadSkip b) _ _ _ _ sep y z hsep hk (by omega) hbsu
    | succ k1 =>
      rw [utf8From] at hk
      simp only [Bool.and_eq_true, decide_eq_true_eq] at hk
      obtain ⟨⟨hb1, hb2⟩, hk⟩ := hk
      by_cases hl0 : l = 0
      · subst hl0
        rw [splitLoop_high _ _ _ _ _ _ (by omega), leadSkip_cont b hb1 hb2]
        exact ih k1 0 _ _ _ _ sep y z hsep hk (by omega) hbsu
      · rw [splitLoop_skip _ _ _ _ _ _ _ (by omega) hl0]
        exact ih k1 (l - 1) _ _ _ _ sep y z hsep hk (by omega) hbsu

/-- On a path without backslash and `:` whose last byte is not `/`, the loop
ends with a non-empty last component, and the same path with `/` appended
yields the same components followed by an empty one. -/
theorem splitLoop_snoc_slash (p : CStr) :
    ∀ (k l : Nat) (s pend : CStr) (c : List CStr) (remote : Bool),
      utf8From k p = true → l ≤ k - 1 → (∀ b ∈ p, b ≠ BACKSLASH ∧ b ≠ COLON) →
      (p = [] → s ++ pend ≠ []) → p.getLast? ≠ some SLASH →
      ∃ c1 x, x ≠ [] ∧
        splitLoop l s pend c remote p = some ⟨c ++ c1 ++ [x], remote, 0⟩ ∧
        splitLoop l s pend c remote (p ++ [SLASH]) = some ⟨c ++ c1 ++ [x] ++ [[]], remote, 0⟩ := by
  induction p with
  | nil =>
    intro k l s pend c remote hk hl _ hne _
    have hk0 : k = 0 := by simpa [utf8From] using hk
    have hl0 : l = 0 := by omega
    subst hl0
    refine ⟨[], s ++ pend, hne rfl, ?_, ?_⟩
    · rw [splitLoop_nil]; simp [splitAtEnd]
    · rw [List.nil_append, splitLoop_slash, splitLoop_nil]; simp [splitAtEnd]
  | cons b p ih =>
    intro k l s pend c remote hk hl hs _ hlast
    have hsp : ∀ a ∈ p, a ≠ BACKSLASH ∧ a ≠ COLON := fun a ha => hs a (List.mem_cons_of_mem _ ha)
    have hsb := hs b (List.mem_cons_self _ _)
    have hlastp : p.getLast? ≠ some SLASH := by
      cases p with
      | nil => simp
      | cons a q => simpa [List.getLast?_cons_cons] using hlast
    have hpend : ∀ t : CStr, p = [] → t ++ (pend ++ [b]) ≠ [] := by
      intro t _; simp
    cases k with
    | zero =>
      have hl0 : l = 0 := by omega
      subst hl0
      rw [utf8From] at hk
      split_ifs at hk with hascii
      · by_cases h47 : b = SLASH
        · subst h47
          have hpne : p ≠ [] := by
            intro h; subst h; simp at hlast
          obtain ⟨c1, x, hx, h1, h2⟩ :=
            ih 0 0 [] [] (c ++ [s ++ pend]) remote hk (by omega) hsp
              (fun h => absurd h hpne) hlastp
          refine ⟨[s ++ pend] ++ c1, x, hx, ?_, ?_⟩
          · rw [splitLoop_slash, h1]; simp
          · rw [List.cons_append, splitLoop_slash, h2]; simp
        · obtain ⟨c1, x, hx, h1, h2⟩ :=
            ih 0 0 s (pend ++ [b]) c remote hk (by omega) hsp (hpend s) hlastp
          refine ⟨c1, x, hx, ?_, ?_⟩
          · rw [splitLoop_ascii _ _ _ _ _ _ (by omega) (by omega) hsb.1 hsb.2 h47, h1]
          · rw [List.cons_append,
              splitLoop_ascii _ _ _ _ _ _ (by omega) (by omega) hsb.1 hsb.2 h47, h2]
      · cases hcb : contBytes b with
        | none => simp [hcb] at hk
        | some k1 =>
          simp only [hcb] at hk
          obtain ⟨hb, hlead⟩ := leadSkip_lead b k1 hcb
          obtain ⟨c1, x, hx, h1, h2⟩ :=
            ih k1 (leadSkip b) s (pend ++ [b]) c remote hk (by omega) hsp (hpend s) hlastp
          refine ⟨c1, x, hx, ?_, ?_⟩
          · rw [splitLoop_high _ _ _ _ _ _ hb, h1]
          · rw [List.cons_append, splitLoop_high _ _ _ _ _ _ hb, h2]
    | succ k1 =>
      rw [utf8From] at hk
      simp only [Bool.and_eq_true, decide_eq_true_eq] at hk
      obtain ⟨⟨hb1, hb2⟩, hk⟩ := hk
      by_cases hl0 : l = 0
      · subst hl0
        obtain ⟨c1, x, hx, h1, h2⟩ :=
          ih k1 0 s (pend ++ [b]) c remote hk (by omega) hsp (hpend s) hlastp
        refine ⟨c1, x, hx, ?_, ?_⟩
        · rw [splitLoop_high _ _ _ _ _ _ (by omega), leadSkip_cont b hb1 hb2, h1]
        · rw [List.cons_append, splitLoop_high _ _ _ _ _ _ (by omega),
            leadSkip_cont b hb1 hb2, h2]
      · obtain ⟨c1, x, hx, h1, h2⟩ :=
          ih k1 (l - 1) s (pend ++ [b]) c remote hk (by omega) hsp (hpend s) hlastp
        refine ⟨c1, x, hx, ?_, ?_⟩
        · rw [splitLoop_skip _ _ _ _ _ _ _ (by omega) hl0, h1]
        · rw [List.cons_append, splitLoop_skip _ _ _ _ _ _ _ (by omega) hl0, h2]

/-! ## The walk over the components -/

theorem walk_none {W : Type} (api : MegaApi W) (w : W) (wantName : Bool) (sh : Bool)
    (c : List CStr) : walk api w wantName none sh c = Resolved.null := by
  rw [walk]

theorem walk_nil {W : Type} (api : MegaApi W) (w : W) (wantName : Bool) (n : MegaNode)
    (sh : Bool) : walk api w wantName (some n) sh [] = ⟨some n, sh, none, none⟩ := by
  rw [walk]

theorem walk_cons {W : Type} (api : MegaApi W) (w : W) (wantName : Bool) (n : MegaNode)
    (sh : Bool) (seg : CStr) (rest : List CStr) :
    walk api w wantName (some n) sh (seg :: rest) =
      if seg = DOT then walk api w wantName (some n) sh rest
      else if seg = DOTDOT then walk api w wantName (api.getParentNode w n) false rest
      else if seg = [] then walk api w wantName (some n) sh rest
      else
        match api.getChildNode w n seg with
        | none =>
          if wantName = true ∧ rest = [] then ⟨some n, sh, none, some seg⟩
          else Resolved.null
        | some nn => walk api w wantName (some nn) false rest := by
  rw [walk]

/-- An empty component at the end of the components is passed over by the walk
when the walk has not captured a name. -/
theorem walk_snoc_empty {W : Type} (api : MegaApi W) (w : W) (wantName : Bool)
    (c : List CStr) :
    ∀ (n : Option MegaNode) (sh : Bool),
      (walk api w wantName n sh c).namepart = none →
      walk api w wantName n sh (c ++ [[]]) = walk api w wantName n sh c := by
  induction c with
  | nil =>
    intro n sh _
    cases n with
    | none => simp [walk_none]
    | some n => simp [walk_cons, walk_nil, DOT, DOTDOT]
  | cons seg rest ih =>
    intro n sh h
    cases n with
    | none => simp [walk_none]
    | some n =>
      rw [List.cons_append, walk_cons, walk_cons api w wantName n sh seg rest]
      rw [walk_cons] at h
      by_cases h1 : seg = DOT
      · simp only [h1, if_true] at h ⊢
        exact ih _ _ h
      · by_cases h2 : seg = DOTDOT
        · simp only [h1, h2, if_true, if_false] at h ⊢
          exact ih _ _ h
        · by_cases h3 : seg = []
          · simp only [h1, h2, h3, if_true, if_false] at h ⊢
            exact ih _ _ h
          · simp only [h1, h2, h3, if_false] at h ⊢
            cases hch : api.getChildNode w n seg with
            | some nn =>
              simp only [hch] at h ⊢
              exact ih _ _ h
            | none =>
              simp only [hch] at h ⊢
              by_cases hcap : wantName = true ∧ rest = []
              · simp [hcap] at h
              · simp [hcap]

/-- A path that resolves without a captured name resolves to the same result
with a `/` appended, provided it has no backslash and no `:`, is not empty and
does not itself end in `/`. -/
theorem nodebypath_trailing_slash {W : Type} (api : MegaApi W) (w : W) (g : Globals)
    (p : CStr) (wantUser wantName : Bool)
    (henc : utf8Valid p = true) (hs : ∀ b ∈ p, b ≠ BACKSLASH ∧ b ≠ COLON)
    (hne : p ≠ []) (hlast : p.getLast? ≠ some SLASH)
    (hfull : (nodebypath api w g p wantUser wantName).namepart = none) :
    nodebypath api w g (p ++ [SLASH]) wantUser wantName
      = nodebypath api w g p wantUser wantName := by
  obtain ⟨c1, x, hx, h1, h2⟩ :=
    splitLoop_snoc_slash p 0 0 [] [] [] false henc (by omega) hs (fun h => absurd h hne) hlast
  simp only [List.nil_append] at h1 h2
  have e1 : splitPath p = some ⟨c1 ++ [x], false, 0⟩ := h1
  have e2 : splitPath (p ++ [SLASH]) = some ⟨c1 ++ [x] ++ [[]], false, 0⟩ := h2
  unfold nodebypath at hfull ⊢
  rw [e1] at hfull ⊢
  rw [e2]
  match c1 with
  | [] =>
    simp [hx] at hfull ⊢
    exact walk_snoc_empty api w wantName [x] _ _ hfull
  | [a] =>
    by_cases ha : a = []
    · simp [ha, hx] at hfull ⊢
      exact walk_snoc_empty api w wantName [x] _ _ hfull
    · simp [ha] at hfull ⊢
      exact walk_snoc_empty api w wantName [a, x] _ _ hfull
  | a :: b :: r =>
    by_cases ha : a = []
    · by_cases hb : b = []
      · cases r with
        | nil =>
          simp only [ha, hb, List.cons_append, List.nil_append, List.length_cons,
            List.length_nil, List.getD_cons_zero, List.getD_cons_succ, List.drop_succ_cons,
            List.drop_zero] at hfull ⊢
          simp only [Nat.reduceAdd, Nat.reduceLT, Nat.lt_add_one, and_self, if_true,
            ne_eq, not_true_eq_false, if_false, Bool.false_eq_true, List.drop_nil] at hfull ⊢
          split_ifs at hfull ⊢ with h5 h6
          · exact walk_snoc_empty api w wantName [] _ _ hfull
          · exact walk_snoc_empty api w wantName [] _ _ hfull
          · rfl
        | cons r0 r1 =>
          simp only [ha, hb, List.cons_append, List.nil_append, List.length_cons,
            List.getD_cons_zero, List.getD_cons_succ, List.drop_succ_cons,
            List.drop_zero] at hfull ⊢
          simp only [ne_eq, not_true_eq_false, if_false, Bool.false_eq_true,
            List.length_append, List.length_cons, List.length_nil] at hfull ⊢
          have l1 : 1 < r1.length + (0 + 1) + 1 + 1 + 1 := by omega
          have l2 : 2 < r1.length + (0 + 1) + 1 + 1 + 1 := by omega
          have l3 : 1 < r1.length + (0 + 1) + (0 + 1) + 1 + 1 + 1 := by omega
          have l4 : 2 < r1.length + (0 + 1) + (0 + 1) + 1 + 1 + 1 := by omega
          simp only [l1, l2, l3, l4, and_self, if_true, true_and] at hfull ⊢
          split_ifs at hfull ⊢ with h5 h6
          · exact walk_snoc_empty api w wantName (r1 ++ [x]) _ _ hfull
          · exact walk_snoc_empty api w wantName (r1 ++ [x]) _ _ hfull
          · rfl
      · simp [ha, hb] at hfull ⊢
        have := walk_snoc_empty api w wantName (b :: (r ++ [x])) _ _ hfull
        simpa using this
    · simp [ha] at hfull ⊢
      have := walk_snoc_empty api w wantName (a :: b :: (r ++ [x])) _ _ hfull
      simpa using this

/-! ## The node store -/

/-- In the node store, a `moveNode` that completes with `API_OK` on two live
nodes re-parents the moved node. -/
theorem simApi_moveNode_reparents (w0 : Sim) (x t : MegaNode)
    (hx : simApi.getNodeByHandle w0 x.handle ≠ none)
    (ht : simApi.getNodeByHandle w0 t.handle ≠ none)
    (hok : (simApi.submit w0 (.moveNode x t)).1 = API_OK) :
    ∃ x', simApi.getNodeByHandle (simApi.submit w0 (.moveNode x t)).2 x.handle = some x' ∧
      (simApi.getParentNode (simApi.submit w0 (.moveNode x t)).2 x').map MegaNode.handle
        = some t.handle := by
  have hnodes : (simApi.submit w0 (.moveNode x t)).2.nodes
      = Sim.apply w0.nodes (.moveNode x t) := by
    simp only [simApi, Sim.submit] at hok ⊢
    cases hr : w0.replies with
    | nil => simp
    | cons code rest =>
      simp only [hr] at hok ⊢
      by_cases hc : code = API_OK
      · simp [hc]
      · simp [hc] at hok
  simp only [simApi] at hx ht hnodes ⊢
  rw [hnodes]
  simp only [Sim.apply, List.find?_map]
  cases hfx : w0.nodes.find? (fun m => decide (m.handle = x.handle)) with
  | none => exact absurd hfx hx
  | some x0 =>
    cases hft : w0.nodes.find? (fun m => decide (m.handle = t.handle)) with
    | none => exact absurd hft ht
    | some t0 =>
      have hx0 : x0.handle = x.handle := by simpa using List.find?_some hfx
      have ht0 : t0.handle = t.handle := by simpa using List.find?_some hft
      have hp1 : ((fun m : MegaNode => decide (m.handle = x.handle)) ∘
          fun m : MegaNode => if m.handle = x.handle then { m with parentHandle := t.handle } else m)
          = fun m => decide (m.handle = x.handle) := by
        funext m; by_cases hm : m.handle = x.handle <;> simp [hm]
      have hp2 : ((fun m : MegaNode => decide (m.handle = t.handle)) ∘
          fun m : MegaNode => if m.handle = x.handle then { m with parentHandle := t.handle } else m)
          = fun m => decide (m.handle = t.handle) := by
        funext m; by_cases hm : m.handle = x.handle <;> simp [hm]
      refine ⟨{ x0 with parentHandle := t.handle }, ?_, ?_⟩
      · rw [hp1, hfx]; simp [hx0]
      · simp only []
        rw [hp2, hft]
        by_cases hm : t0.handle = x.handle
        · simp [hm]; omega
        · simp [hm]; exact ht0

/-! ## The splitter: claims -/

/-- C6: for every correctly UTF-8-encoded path `p` without backslash, `:` and
`/`, the splitting loop at the head of `nodebypath` yields the single component
`p` and leaves the namespace flag `remote` unset (and `l` at `0`, so the path is
accepted); the empty path yields the single empty component. -/
theorem splitPath_plain (p : CStr) (henc : utf8Valid p = true) (hp : noSpecial p) :
    splitPath p = some ⟨[p], false, 0⟩ := by
  have h := splitLoop_plain p 0 0 [] [] [] false [] henc (by omega) hp
  simp only [List.append_nil, List.nil_append] at h
  unfold splitPath
  rw [h, splitLoop_nil]
  simp [splitAtEnd]

theorem splitPath_plain_witness :
    utf8Valid [104, 0xE2, 0x82, 0xAC] = true ∧ noSpecial [104, 0xE2, 0x82, 0xAC] ∧
      splitPath [104, 0xE2, 0x82, 0xAC] = some ⟨[[104, 0xE2, 0x82, 0xAC]], false, 0⟩ :=
  ⟨by decide, by decide, splitPath_plain [104, 0xE2, 0x82, 0xAC] (by decide) (by decide)⟩

/-- C7, as stated, fails: the strings `a` = byte `0xE9` alone (not correct
UTF-8) and `b` = `"b"` contain no backslash, `:` or `/`, yet the path
`a \ / b` is split into the two components `a \` and `b`: the byte `0xE9` sets
`l` to `1` and the backslash is passed over as a continuation byte. -/
theorem splitPath_escape_stray_lead :
    noSpecial [0xE9] ∧ noSpecial [98] ∧ ([98] : CStr) ≠ [] ∧
      splitPath ([0xE9] ++ BACKSLASH :: SLASH :: [98])
        = some ⟨[[0xE9, BACKSLASH], [98]], false, 0⟩ ∧
      splitPath ([0xE9] ++ BACKSLASH :: SLASH :: [98])
        ≠ some ⟨[[0xE9] ++ SLASH :: [98]], false, 0⟩ := by
  decide

/-- C7, amended: for all correctly UTF-8-encoded strings `a` and `b` without
backslash, `:` and `/`, `b` non-empty, and every `x` among `/`, `:` and
backslash, the path `a \ x b` is split into the single component `a x b`, with
the namespace flag unset. -/
theorem splitPath_escape (a b : CStr) (x : Nat)
    (ha : utf8Valid a = true) (hb : utf8Valid b = true)
    (hsa : noSpecial a) (hsb : noSpecial b) (hne : b ≠ [])
    (hx : x = SLASH ∨ x = COLON ∨ x = BACKSLASH) :
    splitPath (a ++ BACKSLASH :: x :: b) = some ⟨[a ++ x :: b], false, 0⟩ := by
  cases b with
  | nil => exact absurd rfl hne
  | cons f u =>
    obtain ⟨hf, k, hk⟩ := utf8From_cons f u hb
    have hx0 : x ≠ 0 := by
      rcases hx with h | h | h <;> (subst h; simp [SLASH, COLON, BACKSLASH])
    have hsu : noSpecial u := fun y hy => hsb y (List.mem_cons_of_mem _ hy)
    have h1 := splitLoop_plain a 0 0 [] [] [] false (BACKSLASH :: x :: f :: u) ha (by omega) hsa
    have h2 := splitLoop_plain u k 0 ([] ++ ([] ++ a)) [x, f] [] false [] hk (by omega) hsu
    simp only [List.append_nil, List.nil_append] at h1 h2
    unfold splitPath
    rw [h1, splitLoop_escape _ _ _ _ _ _ _ hx0 hf]
    simp only [List.nil_append]
    rw [h2, splitLoop_nil]
    simp [splitAtEnd]

theorem splitPath_escape_witness :
    utf8Valid [97] = true ∧ utf8Valid [98] = true ∧ noSpecial [97] ∧ noSpecial [98] ∧
      splitPath ([97] ++ BACKSLASH :: SLASH :: [98]) = some ⟨[[97] ++ SLASH :: [98]], false, 0⟩ :=
  ⟨by decide, by decide, by decide, by decide,
    splitPath_escape [97] [98] SLASH (by decide) (by decide) (by decide) (by decide)
      (by decide) (Or.inl rfl)⟩

/-- C8 at its failing inputs.  The path `a \ /` has no unescaped `/`, so one
component `a/` is due, and the loop pushes none: after the escaped `/` the
`continue` runs the loop condition on the terminator and the loop ends before
the component is pushed.  The path `\ a / b` has one unescaped `/`, so two
components are due, and the loop yields the single component `a/b`: the byte
after the escaped `a` is passed over unexamined. -/
theorem splitPath_escape_skips_next_byte :
    splitPath [97, BACKSLASH, SLASH] = some ⟨[], false, 0⟩ ∧
      splitPath [BACKSLASH, 97, SLASH, 98] = some ⟨[[97, SLASH, 98]], false, 0⟩ := by
  decide

/-- C9: for every correctly encoded path without backslash in which a `:`
comes after an earlier `/` or an earlier `:`, `nodebypath` returns `NULL` and
stores nothing through `user` or `namepart`. -/
theorem nodebypath_colon_after_separator {W : Type} (api : MegaApi W) (w : W) (g : Globals)
    (x y z : CStr) (sep : Nat) (wantUser wantName : Bool)
    (hsep : sep = SLASH ∨ sep = COLON)
    (henc : utf8Valid (x ++ sep :: (y ++ COLON :: z)) = true)
    (hbs : ∀ b ∈ x ++ sep :: (y ++ COLON :: z), b ≠ BACKSLASH) :
    nodebypath api w g (x ++ sep :: (y ++ COLON :: z)) wantUser wantName
      = ⟨none, false, none, none⟩ := by
  have h := splitLoop_sep_then_colon x 0 0 [] [] [] false sep y z hsep henc (by omega) hbs
  unfold nodebypath splitPath
  rw [h]
  rfl

theorem nodebypath_colon_after_separator_witness :
    utf8Valid ([97] ++ SLASH :: ([98] ++ COLON :: [99])) = true ∧
      nodebypath simApi ⟨demoNodes, []⟩ demoGlobals ([97] ++ SLASH :: ([98] ++ COLON :: [99]))
        true true = ⟨none, false, none, none⟩ :=
  ⟨by decide,
    nodebypath_colon_after_separator simApi ⟨demoNodes, []⟩ demoGlobals [97] [98] [99] SLASH
      true true (Or.inl rfl) (by decide) (by decide)⟩

/-- C10 at its failing input.  The one-byte path `0xE2` is a lead byte that
announces two continuation bytes and is followed by none.  The loop sets `l`
to `1`, decrements it on the terminator and ends with `l == 0` and no
component, so the path is not rejected: `nodebypath` returns the node of `cwd`
(here folder `a`).  With one continuation byte, `0xE2 0x82`, the path is
accepted too, as one component. -/
theorem nodebypath_truncated_sequence :
    utf8Valid [0xE2] = false ∧
      splitPath [0xE2] = some ⟨[], false, 0⟩ ∧
      (nodebypath simApi ⟨demoNodes, []⟩ demoGlobals [0xE2] false false).node
        = some ⟨2, .TYPE_FOLDER, [97], 1⟩ ∧
      splitPath [0xE2, 0x82] = some ⟨[[0xE2, 0x82]], false, 0⟩ := by
  decide

/-! ## The command `mv`: claims -/

/-- C1: `mv src dst` where `src` resolves to a node `n` and `dst` resolves, with
name capture, to a node `tn` that is not a file plus a non-empty new name:
`moveNode(n, tn)` is issued first; `renameNode(n, newname)` is issued, in the
state the completed move leaves, if and only if the move completed with
`API_OK`; when the move completes with an error nothing else is issued and the
code logged is the move's. -/
theorem mv_move_then_rename {W : Type} (api : MegaApi W) (g : Globals) (w : W)
    (src dst : CStr) (n tn : MegaNode) (newname : CStr)
    (hsrc : (nodebypath api w g src false false).node = some n)
    (hdst : (nodebypath api w g dst false true).node = some tn)
    (hname : (nodebypath api w g dst false true).namepart = some newname)
    (hne : newname ≠ [])
    (htype : tn.type ≠ .TYPE_FILE) :
    ((api.submit w (.moveNode n tn)).1 = API_OK →
        (mv api g w src dst).issued = [.moveNode n tn, .renameNode n newname] ∧
        (mv api g w src dst).world
          = (api.submit (api.submit w (.moveNode n tn)).2 (.renameNode n newname)).2 ∧
        (mv api g w src dst).out = []) ∧
    ((api.submit w (.moveNode n tn)).1 ≠ API_OK →
        (mv api g w src dst).issued = [.moveNode n tn] ∧
        (mv api g w src dst).world = (api.submit w (.moveNode n tn)).2 ∧
        (mv api g w src dst).out
          = [.wontRename n.name tn.name (api.submit w (.moveNode n tn)).1]) ∧
    (.renameNode n newname ∈ (mv api g w src dst).issued
        ↔ (api.submit w (.moveNode n tn)).1 = API_OK) := by
  have hmv : mv api g w src dst =
      if (api.submit w (.moveNode n tn)).1 = API_OK then
        ((Exec.issue api ⟨w, [], []⟩ (.moveNode n tn)).2.issue api (.renameNode n newname)).2
      else (Exec.issue api ⟨w, [], []⟩ (.moveNode n tn)).2.print
        (.wontRename n.name tn.name (api.submit w (.moveNode n tn)).1) := by
    simp [mv, hsrc, hdst, hname, hne, htype, Exec.issue]
  rw [hmv]
  by_cases hc : (api.submit w (.moveNode n tn)).1 = API_OK
  · simp [hc, Exec.issue]
  · simp [hc, Exec.issue, Exec.print]

theorem mv_move_then_rename_witness :
    (mv simApi demoGlobals ⟨demoNodes, []⟩ [47, 97, 47, 102] [47, 98, 47, 104]).issued
        = [.moveNode ⟨4, .TYPE_FILE, [102], 2⟩ ⟨3, .TYPE_FOLDER, [98], 1⟩,
           .renameNode ⟨4, .TYPE_FILE, [102], 2⟩ [104]] ∧
      (mv simApi demoGlobals ⟨demoNodes, [API_EACCESS]⟩
          [47, 97, 47, 102] [47, 98, 47, 104]).issued
        = [.moveNode ⟨4, .TYPE_FILE, [102], 2⟩ ⟨3, .TYPE_FOLDER, [98], 1⟩] :=
  ⟨((mv_move_then_rename simApi demoGlobals ⟨demoNodes, []⟩ [47, 97, 47, 102]
        [47, 98, 47, 104] ⟨4, .TYPE_FILE, [102], 2⟩ ⟨3, .TYPE_FOLDER, [98], 1⟩ [104]
        (by decide) (by decide) (by decide) (by decide) (by decide)).1 (by decide)).1,
    ((mv_move_then_rename simApi demoGlobals ⟨demoNodes, [API_EACCESS]⟩ [47, 97, 47, 102]
        [47, 98, 47, 104] ⟨4, .TYPE_FILE, [102], 2⟩ ⟨3, .TYPE_FOLDER, [98], 1⟩ [104]
        (by decide) (by decide) (by decide) (by decide) (by decide)).2.1 (by decide)).1⟩

/-- C2: `mv src dst` where `src` resolves to a node `n` and `dst` resolves
fully to a node `b` that is not a file: the one request issued is
`moveNode(n, b)`, nothing is printed, and the tree is left as that request
leaves it.  Under an api in which a `moveNode` on live nodes that completes
with `API_OK` re-parents the node, the parent of `n` afterwards is `b`.  A `/`
appended to such a destination (correctly encoded, without backslash and `:`,
not already ending in `/`) changes nothing: the trailing empty component is
passed over. -/
theorem mv_into_existing_node {W : Type} (api : MegaApi W) (g : Globals) (w : W)
    (src dst : CStr) (n b : MegaNode)
    (hsrc : (nodebypath api w g src false false).node = some n)
    (hdst : (nodebypath api w g dst false true).node = some b)
    (hfull : (nodebypath api w g dst false true).namepart = none)
    (htype : b.type ≠ .TYPE_FILE) :
    (mv api g w src dst).issued = [.moveNode n b] ∧
    (mv api g w src dst).world = (api.submit w (.moveNode n b)).2 ∧
    (mv api g w src dst).out = [] ∧
    ((∀ w0 x t, api.getNodeByHandle w0 x.handle ≠ none →
          api.getNodeByHandle w0 t.handle ≠ none →
          (api.submit w0 (.moveNode x t)).1 = API_OK →
          ∃ x', api.getNodeByHandle (api.submit w0 (.moveNode x t)).2 x.handle = some x' ∧
            (api.getParentNode (api.submit w0 (.moveNode x t)).2 x').map MegaNode.handle
              = some t.handle) →
      api.getNodeByHandle w n.handle ≠ none → api.getNodeByHandle w b.handle ≠ none →
      (api.submit w (.moveNode n b)).1 = API_OK →
      ∃ n', api.getNodeByHandle (mv api g w src dst).world n.handle = some n' ∧
        (api.getParentNode (mv api g w src dst).world n').map MegaNode.handle
          = some b.handle) ∧
    (utf8Valid dst = true → (∀ x ∈ dst, x ≠ BACKSLASH ∧ x ≠ COLON) → dst ≠ [] →
      dst.getLast? ≠ some SLASH →
      mv api g w src (dst ++ [SLASH]) = mv api g w src dst) := by
  have hmv : ∀ d : CStr, (nodebypath api w g d false true).node = some b →
      (nodebypath api w g d false true).namepart = none →
      mv api g w src d = (Exec.issue api ⟨w, [], []⟩ (.moveNode n b)).2 := by
    intro d h1 h2
    simp [mv, hsrc, h1, h2, htype]
  have h0 := hmv dst hdst hfull
  refine ⟨?_, ?_, ?_, ?_, ?_⟩
  · rw [h0]; simp [Exec.issue]
  · rw [h0]; simp [Exec.issue]
  · rw [h0]; simp [Exec.issue]
  · intro hstore hn hb hok
    have hw : (mv api g w src dst).world = (api.submit w (.moveNode n b)).2 := by
      rw [h0]; simp [Exec.issue]
    rw [hw]
    exact hstore w n b hn hb hok
  · intro henc hs hne hlast
    have ht := nodebypath_trailing_slash api w g dst false true henc hs hne hlast hfull
    rw [h0, hmv (dst ++ [SLASH]) (by rw [ht]; exact hdst) (by rw [ht]; exact hfull)]

theorem mv_into_existing_node_witness :
    (mv simApi demoGlobals ⟨demoNodes, []⟩ [47, 97, 47, 102] [47, 98]).issued
        = [.moveNode ⟨4, .TYPE_FILE, [102], 2⟩ ⟨3, .TYPE_FOLDER, [98], 1⟩] ∧
      (∃ n', simApi.getNodeByHandle
            (mv simApi demoGlobals ⟨demoNodes, []⟩ [47, 97, 47, 102] [47, 98]).world 4 = some n' ∧
          (simApi.getParentNode
            (mv simApi demoGlobals ⟨demoNodes, []⟩ [47, 97, 47, 102] [47, 98]).world n').map
              MegaNode.handle = some 3) ∧
      mv simApi demoGlobals ⟨demoNodes, []⟩ [47, 97, 47, 102] ([47, 98] ++ [SLASH])
        = mv simApi demoGlobals ⟨demoNodes, []⟩ [47, 97, 47, 102] [47, 98] :=
  have h := mv_into_existing_node simApi demoGlobals ⟨demoNodes, []⟩ [47, 97, 47, 102] [47, 98]
    ⟨4, .TYPE_FILE, [102], 2⟩ ⟨3, .TYPE_FOLDER, [98], 1⟩
    (by decide) (by decide) (by decide) (by decide)
  ⟨h.1, h.2.2.2.1 simApi_moveNode_reparents (by decide) (by decide) (by decide),
    h.2.2.2.2 (by decide) (by decide) (by decide) (by decide)⟩

/-- C3 at its failing input.  In folder `a`, `mv f g` with both files present
and the move completing with `API_EACCESS`: the program still issues
`remove(g)`, which succeeds, so `g` is deleted although nothing was moved. -/
theorem mv_onto_file_after_failed_move :
    (simApi.submit ⟨demoNodes, [API_EACCESS]⟩
        (.moveNode ⟨4, .TYPE_FILE, [102], 2⟩ ⟨2, .TYPE_FOLDER, [97], 1⟩)).1 = API_EACCESS ∧
      (mv simApi demoGlobals ⟨demoNodes, [API_EACCESS]⟩ [102] [103]).issued
        = [.moveNode ⟨4, .TYPE_FILE, [102], 2⟩ ⟨2, .TYPE_FOLDER, [97], 1⟩,
           .remove ⟨5, .TYPE_FILE, [103], 2⟩] ∧
      simApi.getNodeByHandle
        (mv simApi demoGlobals ⟨demoNodes, [API_EACCESS]⟩ [102] [103]).world 5 = none := by
  decide

/-- C4 at its failing input.  In folder `a`, `mv f f`: both paths resolve to
the file with handle 4, through two calls of `nodebypath` that return two
objects, so the pointers differ, `n != tn` holds and `remove` is issued for the
file itself, which is gone afterwards. -/
theorem mv_file_onto_itself :
    (nodebypath simApi ⟨demoNodes, []⟩ demoGlobals [102] false false).node
        = some ⟨4, .TYPE_FILE, [102], 2⟩ ∧
      (nodebypath simApi ⟨demoNodes, []⟩ demoGlobals [102] false true).node
        = some ⟨4, .TYPE_FILE, [102], 2⟩ ∧
      (mv simApi demoGlobals ⟨demoNodes, []⟩ [102] [102]).issued
        = [.moveNode ⟨4, .TYPE_FILE, [102], 2⟩ ⟨2, .TYPE_FOLDER, [97], 1⟩,
           .remove ⟨4, .TYPE_FILE, [102], 2⟩,
           .renameNode ⟨4, .TYPE_FILE, [102], 2⟩ [102]] ∧
      simApi.getNodeByHandle (mv simApi demoGlobals ⟨demoNodes, []⟩ [102] [102]).world 4
        = none := by
  decide

/-- C5: `mv` issues no request and leaves the remote tree as it is when the
source path does not resolve, when the destination does not resolve even to a
parent node, or when the last name of the destination is unresolved and the
node captured as its parent is a file; the line written names the first of
these that applies. -/
theorem mv_validation_failure {W : Type} (api : MegaApi W) (g : Globals) (w : W)
    (src dst : CStr)
    (h : (nodebypath api w g src false false).node = none ∨
      (nodebypath api w g dst false true).node = none ∨
      ∃ tn newname, (nodebypath api w g dst false true).node = some tn ∧
        (nodebypath api w g dst false true).namepart = some newname ∧
        newname ≠ [] ∧ tn.type = .TYPE_FILE) :
    (mv api g w src dst).issued = [] ∧ (mv api g w src dst).world = w ∧
      (mv api g w src dst).out =
        if (nodebypath api w g src false false).node = none then [.noSuchFileOrDirectory src]
        else if (nodebypath api w g dst false true).node = none then [.noSuchDirectory dst]
        else [.notADirectory dst] := by
  cases hsrc : (nodebypath api w g src false false).node with
  | none => simp [mv, hsrc, Exec.print]
  | some n =>
    cases hdst : (nodebypath api w g dst false true).node with
    | none => simp [mv, hsrc, hdst, Exec.print]
    | some tn =>
      rcases h with h | h | ⟨tn1, newname, h1, h2, h3, h4⟩
      · simp [hsrc] at h
      · simp [hdst] at h
      · rw [hdst] at h1
        cases h1
        simp [mv, hsrc, hdst, h2, h3, h4, Exec.print]

theorem mv_validation_failure_witness :
    (mv simApi demoGlobals ⟨demoNodes, []⟩ [120] [47, 98]).issued = [] ∧
      (mv simApi demoGlobals ⟨demoNodes, []⟩ [102] [120, 47, 121]).issued = [] ∧
      (mv simApi demoGlobals ⟨demoNodes, []⟩ [102] [103, 47, 121]).issued = [] :=
  ⟨(mv_validation_failure simApi demoGlobals ⟨demoNodes, []⟩ [120] [47, 98]
      (Or.inl (by decide))).1,
    (mv_validation_failure simApi demoGlobals ⟨demoNodes, []⟩ [102] [120, 47, 121]
      (Or.inr (Or.inl (by decide)))).1,
    (mv_validation_failure simApi demoGlobals ⟨demoNodes, []⟩ [102] [103, 47, 121]
      (Or.inr (Or.inr ⟨⟨5, .TYPE_FILE, [103], 2⟩, [121],
        by decide, by decide, by decide, by decide⟩))).1⟩

/-! ## The resolver: further lemmas -/

theorem nodebypath_local {W : Type} (api : MegaApi W) (w : W) (g : Globals) (p : CStr)
    (wu wn : Bool) (c : List CStr) (h : splitPath p = some ⟨c, false, 0⟩) :
    nodebypath api w g p wu wn =
      match startNode api w g c with
      | none => Resolved.null
      | some (n, sh, l) => walk api w wn n sh (c.drop l) := by
  unfold nodebypath startNode
  rw [h]
  simp only [ne_eq, not_true_eq_false, if_false, Bool.false_eq_true]
  split_ifs <;> rfl

theorem splitLoop_grows (l : Nat) (s pend : CStr) (c : List CStr) (r : Bool) (q : CStr) :
    ∀ st, splitLoop l s pend c r q = some st →
      (∃ cs, st.c = c ++ cs) ∧ (r = true → st.remote = true) ∧ (c ≠ [] → st.remote = r) := by
  induction l, s, pend, c, r, q using splitLoop.induct with
  | case1 l s pend c r =>
    intro st h
    rw [splitLoop_nil] at h
    cases h
    unfold splitAtEnd
    split_ifs <;> simp
  | case2 l s pend c r rest =>
    intro st h
    rw [splitLoop.eq_def] at h
    simp only [if_true] at h
    cases h
    unfold splitAtEnd
    split_ifs <;> simp
  | case3 l s pend c r b rest hb hl ih =>
    intro st h
    rw [splitLoop_skip _ _ _ _ _ _ _ hb hl] at h
    exact ih st h
  | case4 l s pend c r b rest hb hl h128 ih =>
    intro st h
    have hl0 : l = 0 := by simpa using hl
    subst hl0
    rw [splitLoop_high _ _ _ _ _ _ h128] at h
    exact ih st h
  | case5 l s pend c r hl _ _ =>
    intro st h
    have hl0 : l = 0 := by simpa using hl
    subst hl0
    rw [splitLoop.eq_def] at h
    simp [BACKSLASH] at h
    subst h
    simp
  | case6 l s pend c r hl rest2 _ _ =>
    intro st h
    have hl0 : l = 0 := by simpa using hl
    subst hl0
    rw [splitLoop.eq_def] at h
    simp [BACKSLASH] at h
    subst h
    simp
  | case7 l s pend c r hl f hf _ _ =>
    intro st h
    have hl0 : l = 0 := by simpa using hl
    subst hl0
    rw [splitLoop.eq_def] at h
    simp [BACKSLASH, hf] at h
    subst h
    simp
  | case8 l s pend c r hl f hf rest2 _ _ =>
    intro st h
    have hl0 : l = 0 := by simpa using hl
    subst hl0
    rw [splitLoop.eq_def] at h
    simp [BACKSLASH, hf] at h
    subst h
    simp
  | case9 l s pend c r hl f hf f1 rest2 hf1 _ _ ih =>
    intro st h
    have hl0 : l = 0 := by simpa using hl
    subst hl0
    rw [splitLoop_escape _ _ _ _ _ _ _ hf hf1] at h
    exact ih st h
  | case10 l s pend c r rest hl hc _ _ _ =>
    intro st h
    have hl0 : l = 0 := by simpa using hl
    subst hl0
    rw [splitLoop_colon] at h
    simp [hc] at h
  | case11 l s pend c r rest hl hc _ _ _ ih =>
    intro st h
    have hl0 : l = 0 := by simpa using hl
    subst hl0
    have hc0 : c = [] := by simpa using hc
    subst hc0
    rw [splitLoop_colon] at h
    simp only [ne_eq, not_true_eq_false, if_false] at h
    obtain ⟨⟨cs, hcs⟩, h2, _⟩ := ih st h
    refine ⟨⟨_, hcs⟩, fun _ => h2 rfl, fun hne => absurd rfl hne⟩
  | case12 l s pend c r rest hl _ _ _ _ ih =>
    intro st h
    have hl0 : l = 0 := by simpa using hl
    subst hl0
    rw [splitLoop_slash] at h
    obtain ⟨⟨cs, hcs⟩, h2, h3⟩ := ih st h
    refine ⟨⟨[s ++ pend] ++ cs, by simpa using hcs⟩, h2, fun _ => h3 (by simp)⟩
  | case13 l s pend c r b rest hb hl h128 hbs hcol hsl ih =>
    intro st h
    have hl0 : l = 0 := by simpa using hl
    subst hl0
    rw [splitLoop_ascii _ _ _ _ _ _ hb (by omega) hbs hcol hsl] at h
    exact ih st h

/-- Correctly encoded text without backslash and `:` is cut at its slashes:
the loop pushes the components `c1` and leaves `x` pending, which is pushed at
the end of the text or at a following `/`. -/
theorem splitLoop_segments (p : CStr) :
    ∀ (k l : Nat) (s pend : CStr),
      utf8From k p = true → l ≤ k - 1 → (∀ b ∈ p, b ≠ BACKSLASH ∧ b ≠ COLON) →
      ∃ c1 x,
        (∀ (c : List CStr) (r : Bool),
          splitLoop l s pend c r p = some ⟨c ++ c1 ++ [x], r, 0⟩ ∧
          ∀ rest, splitLoop l s pend c r (p ++ SLASH :: rest)
            = splitLoop 0 [] [] (c ++ c1 ++ [x]) r rest) ∧
        ((s ++ pend ≠ [] ∨ ∃ b u, p = b :: u ∧ b ≠ SLASH) → (c1 ++ [x]).head? ≠ some []) := by
  induction p with
  | nil =>
    intro k l s pend hk hl _
    have hk0 : k = 0 := by simpa [utf8From] using hk
    have hl0 : l = 0 := by omega
    subst hl0
    refine ⟨[], s ++ pend, fun c r => ⟨?_, fun rest => ?_⟩, ?_⟩
    · rw [splitLoop_nil]; simp [splitAtEnd]
    · rw [List.nil_append, splitLoop_slash]; simp
    · rintro (h | ⟨b, u, h, _⟩)
      · simpa using h
      · simp at h
  | cons b p ih =>
    intro k l s pend hk hl hs
    have hsp : ∀ a ∈ p, a ≠ BACKSLASH ∧ a ≠ COLON := fun a ha => hs a (List.mem_cons_of_mem _ ha)
    have hsb := hs b (List.mem_cons_self _ _)
    have hhead : ∀ (c1 : List CStr) (x : CStr), ((c1 ++ [x]).head? ≠ some []) →
        ((s ++ pend ≠ [] ∨ ∃ b' u, b :: p = b' :: u ∧ b' ≠ SLASH) → (c1 ++ [x]).head? ≠ some []) :=
      fun _ _ h _ => h
    cases k with
    | zero =>
      have hl0 : l = 0 := by omega
      subst hl0
      rw [utf8From] at hk
      split_ifs at hk with hascii
      · by_cases h47 : b = SLASH
        · subst h47
          obtain ⟨c1, x, h1, _⟩ := ih 0 0 [] [] hk (by omega) hsp
          refine ⟨[s ++ pend] ++ c1, x, fun c r => ⟨?_, fun rest => ?_⟩, ?_⟩
          · rw [splitLoop_slash, (h1 _ _).1]; simp
          · rw [List.cons_append, splitLoop_slash, (h1 _ _).2]; simp
          · rintro (h | ⟨b, u, h, hb⟩)
            · simpa using h
            · simp at h; exact absurd h.1.symm hb
        · obtain ⟨c1, x, h1, h2⟩ := ih 0 0 s (pend ++ [b]) hk (by omega) hsp
          refine ⟨c1, x, fun c r => ⟨?_, fun rest => ?_⟩, hhead c1 x (h2 (Or.inl (by simp)))⟩
          · rw [splitLoop_ascii _ _ _ _ _ _ (by omega) (by omega) hsb.1 hsb.2 h47, (h1 _ _).1]
          · rw [List.cons_append,
              splitLoop_ascii _ _ _ _ _ _ (by omega) (by omega) hsb.1 hsb.2 h47, (h1 _ _).2]
      · cases hcb : contBytes b with
        | none => simp [hcb] at hk
        | some k1 =>
          simp only [hcb] at hk
          obtain ⟨hb, hlead⟩ := leadSkip_lead b k1 hcb
          obtain ⟨c1, x, h1, h2⟩ := ih k1 (leadSkip b) s (pend ++ [b]) hk (by omega) hsp
          refine ⟨c1, x, fun c r => ⟨?_, fun rest => ?_⟩, hhead c1 x (h2 (Or.inl (by simp)))⟩
          · rw [splitLoop_high _ _ _ _ _ _ hb, (h1 _ _).1]
          · rw [List.cons_append, splitLoop_high _ _ _ _ _ _ hb, (h1 _ _).2]
    | succ k1 =>
      rw [utf8From] at hk
      simp only [Bool.and_eq_true, decide_eq_true_eq] at hk
      obtain ⟨⟨hb1, hb2⟩, hk⟩ := hk
      by_cases hl0 : l = 0
      · subst hl0
        obtain ⟨c1, x, h1, h2⟩ := ih k1 0 s (pend ++ [b]) hk (by omega) hsp
        refine ⟨c1, x, fun c r => ⟨?_, fun rest => ?_⟩, hhead c1 x (h2 (Or.inl (by simp)))⟩
        · rw [splitLoop_high _ _ _ _ _ _ (by omega), leadSkip_cont b hb1 hb2, (h1 _ _).1]
        · rw [List.cons_append, splitLoop_high _ _ _ _ _ _ (by omega),
            leadSkip_cont b hb1 hb2, (h1 _ _).2]
      · obtain ⟨c1, x, h1, h2⟩ := ih k1 (l - 1) s (pend ++ [b]) hk (by omega) hsp
        refine ⟨c1, x, fun c r => ⟨?_, fun rest => ?_⟩, hhead c1 x (h2 (Or.inl (by simp)))⟩
        · rw [splitLoop_skip _ _ _ _ _ _ _ (by omega) hl0, (h1 _ _).1]
        · rw [List.cons_append, splitLoop_skip _ _ _ _ _ _ _ (by omega) hl0, (h1 _ _).2]

/-- The components of a correctly encoded path without backslash and `:`. -/
theorem splitPath_segments (p : CStr) (henc : utf8Valid p = true)
    (hs : ∀ b ∈ p, b ≠ BACKSLASH ∧ b ≠ COLON) :
    ∃ c1 x, splitPath p = some ⟨c1 ++ [x], false, 0⟩ ∧
      (∀ rest, splitPath (p ++ SLASH :: rest) = splitLoop 0 [] [] (c1 ++ [x]) false rest) ∧
      ((∃ b u, p = b :: u ∧ b ≠ SLASH) → (c1 ++ [x]).head? ≠ some []) := by
  obtain ⟨c1, x, h1, h2⟩ := splitLoop_segments p 0 0 [] [] henc (by omega) hs
  refine ⟨c1, x, ?_, fun rest => ?_, fun h => h2 (Or.inr h)⟩
  · simpa [splitPath] using (h1 [] false).1
  · simpa [splitPath] using (h1 [] false).2 rest

/-- Components that resolve without capture can be walked first. -/
theorem walk_append_resolved {W : Type} (api : MegaApi W) (w : W) (pre : List CStr) :
    ∀ (n : Option MegaNode) (sh : Bool) (P : MegaNode) (shP : Bool),
      walk api w false n sh pre = ⟨some P, shP, none, none⟩ →
      ∀ (wn : Bool) (rest : List CStr),
        walk api w wn n sh (pre ++ rest) = walk api w wn (some P) shP rest := by
  induction pre with
  | nil =>
    intro n sh P shP h wn rest
    cases n with
    | none => simp [walk_none, Resolved.null] at h
    | some n =>
      rw [walk_nil] at h
      simp only [Resolved.mk.injEq, Option.some.injEq, and_true] at h
      obtain ⟨h1, h2⟩ := h
      subst h1; subst h2
      rfl
  | cons seg pre ih =>
    intro n sh P shP h wn rest
    cases n with
    | none => simp [walk_none, Resolved.null] at h
    | some n =>
      rw [List.cons_append, walk_cons]
      rw [walk_cons] at h
      by_cases h1 : seg = DOT
      · simp only [h1, if_true] at h ⊢
        exact ih _ _ _ _ h wn rest
      · by_cases h2 : seg = DOTDOT
        · simp only [h1, h2, if_true, if_false] at h ⊢
          exact ih _ _ _ _ h wn rest
        · by_cases h3 : seg = []
          · simp only [h1, h2, h3, if_true, if_false] at h ⊢
            exact ih _ _ _ _ h wn rest
          · simp only [h1, h2, h3, if_false] at h ⊢
            cases hch : api.getChildNode w n seg with
            | some nn =>
              simp only [hch] at h ⊢
              exact ih _ _ _ _ h wn rest
            | none =>
              simp [hch, Resolved.null] at h

/-- An empty component followed by further components is passed over. -/
theorem walk_insert_empty {W : Type} (api : MegaApi W) (w : W) (wn : Bool) (pre : List CStr) :
    ∀ (n : Option MegaNode) (sh : Bool) (rest : List CStr), rest ≠ [] →
      walk api w wn n sh (pre ++ [] :: rest) = walk api w wn n sh (pre ++ rest) := by
  induction pre with
  | nil =>
    intro n sh rest _
    cases n with
    | none => simp [walk_none]
    | some n => simp [walk_cons, DOT, DOTDOT]
  | cons seg pre ih =>
    intro n sh rest hr
    cases n with
    | none => simp [walk_none]
    | some n =>
      rw [List.cons_append, List.cons_append, walk_cons, walk_cons]
      by_cases h1 : seg = DOT
      · simp only [h1, if_true]; exact ih _ _ _ hr
      · by_cases h2 : seg = DOTDOT
        · simp only [h1, h2, if_true, if_false]; exact ih _ _ _ hr
        · by_cases h3 : seg = []
          · simp only [h1, h2, h3, if_true, if_false]; exact ih _ _ _ hr
          · simp only [h1, h2, h3, if_false]
            cases hch : api.getChildNode w n seg with
            | some nn => simp only [hch]; exact ih _ _ _ hr
            | none => simp [hr]

/-- Without capture, a final `.` changes nothing. -/
theorem walk_snoc_dot {W : Type} (api : MegaApi W) (w : W) (c : List CStr) :
    ∀ (n : Option MegaNode) (sh : Bool),
      walk api w false n sh (c ++ [DOT]) = walk api w false n sh c := by
  induction c with
  | nil =>
    intro n sh
    cases n with
    | none => simp [walk_none]
    | some n => simp [walk_cons, walk_nil]
  | cons seg c ih =>
    intro n sh
    cases n with
    | none => simp [walk_none]
    | some n =>
      rw [List.cons_append, walk_cons, walk_cons api w false n sh seg c]
      by_cases h1 : seg = DOT
      · simp only [h1, if_true]; exact ih _ _
      · by_cases h2 : seg = DOTDOT
        · simp only [h1, h2, if_true, if_false]; exact ih _ _
        · by_cases h3 : seg = []
          · simp only [h1, h2, h3, if_true, if_false]; exact ih _ _
          · simp only [h1, h2, h3, if_false]
            cases hch : api.getChildNode w n seg with
            | some nn => simp only [hch]; exact ih _ _
            | none => simp

/-- The walk stores no user, and without capture it stores no name either. -/
theorem walk_no_capture {W : Type} (api : MegaApi W) (w : W) (c : List CStr) :
    ∀ (n : Option MegaNode) (sh : Bool),
      (walk api w false n sh c).namepart = none := by
  induction c with
  | nil =>
    intro n sh
    cases n with
    | none => simp [walk_none, Resolved.null]
    | some n => simp [walk_nil]
  | cons seg c ih =>
    intro n sh
    cases n with
    | none => simp [walk_none, Resolved.null]
    | some n =>
      rw [walk_cons]
      by_cases h1 : seg = DOT
      · simp only [h1, if_true]; exact ih _ _
      · by_cases h2 : seg = DOTDOT
        · simp only [h1, h2, if_true, if_false]; exact ih _ _
        · by_cases h3 : seg = []
          · simp only [h1, h2, h3, if_true, if_false]; exact ih _ _
          · simp only [h1, h2, h3, if_false]
            cases hch : api.getChildNode w n seg with
            | some nn => simp only [hch]; exact ih _ _
            | none => simp [Resolved.null]

/-- A walk that finds a node without capture gives the same result with
capture. -/
theorem walk_capture_of_resolved {W : Type} (api : MegaApi W) (w : W) (c : List CStr) :
    ∀ (n : Option MegaNode) (sh : Bool),
      (walk api w false n sh c).node ≠ none →
      walk api w true n sh c = walk api w false n sh c := by
  induction c with
  | nil =>
    intro n sh _
    cases n with
    | none => simp [walk_none]
    | some n => simp [walk_nil]
  | cons seg c ih =>
    intro n sh h
    cases n with
    | none => simp [walk_none]
    | some n =>
      rw [walk_cons] at h
      rw [walk_cons, walk_cons api w false n sh seg c]
      by_cases h1 : seg = DOT
      · simp only [h1, if_true] at h ⊢; exact ih _ _ h
      · by_cases h2 : seg = DOTDOT
        · simp only [h1, h2, if_true, if_false] at h ⊢; exact ih _ _ h
        · by_cases h3 : seg = []
          · simp only [h1, h2, h3, if_true, if_false] at h ⊢; exact ih _ _ h
          · simp only [h1, h2, h3, if_false] at h ⊢
            cases hch : api.getChildNode w n seg with
            | some nn => simp only [hch] at h ⊢; exact ih _ _ h
            | none => simp [hch, Resolved.null] at h

theorem nodebypath_remote {W : Type} (api : MegaApi W) (w : W) (g : Globals) (p : CStr)
    (wu wn : Bool) (st : SplitState) (h : splitPath p = some st) (hr : st.remote = true) :
    nodebypath api w g p wu wn =
      if st.l = 0 ∧ st.c.length = 2 ∧ st.c.getD 1 [] = [] then
        ⟨none, false, if wu = true then some (st.c.getD 0 []) else none, none⟩
      else Resolved.null := by
  unfold nodebypath
  rw [h]
  simp only [hr, if_true]
  by_cases hl : st.l = 0
  · simp [hl]
  · simp [hl]

/-- A path that resolves to a node without capture gives the same result with
capture, and no name is stored. -/
theorem nodebypath_capture_of_resolved {W : Type} (api : MegaApi W) (w : W) (g : Globals)
    (q : CStr) (wu : Bool) (h : (nodebypath api w g q wu false).node ≠ none) :
    nodebypath api w g q wu true = nodebypath api w g q wu false ∧
      (nodebypath api w g q wu true).namepart = none := by
  have key : nodebypath api w g q wu true = nodebypath api w g q wu false := by
    unfold nodebypath at h ⊢
    cases hsp : splitPath q with
    | none => rfl
    | some st =>
      simp only [hsp] at h ⊢
      split_ifs at h ⊢ with h1 h2 h3 h4 h5 h6 h7
      all_goals first
        | rfl
        | exact walk_capture_of_resolved api w _ _ _ h
  refine ⟨key, ?_⟩
  rw [key]
  unfold nodebypath
  cases hsp : splitPath q with
  | none => rfl
  | some st =>
    simp only []
    split_ifs
    all_goals first
      | rfl
      | exact walk_no_capture api w _ _ _

/-- A local path whose first component is not empty starts at `cwd`. -/
theorem startNode_relative {W : Type} (api : MegaApi W) (w : W) (g : Globals) (c : List CStr)
    (h : c.head? ≠ some []) :
    startNode api w g c = some (api.getNodeByHandle w g.cwd, false, 0) := by
  unfold startNode
  cases c with
  | nil => simp
  | cons a t =>
    have ha : a ≠ [] := by simpa using h
    simp [ha]

/-! ## The resolver: claims -/

/-- C11: when the account root (the global `rootNode`), the Inbox and the
Rubbish node exist, then for every value of `cwd` the path `/` resolves to the
account root, `//in` to the Inbox and `//bin` to the Rubbish node, with nothing
stored through `user` or `namepart`. -/
theorem nodebypath_roots {W : Type} (api : MegaApi W) (w : W) (cwd : Nat)
    (r i b : MegaNode) (wu wn : Bool)
    (hi : api.getInboxNode w = some i) (hb : api.getRubbishNode w = some b) :
    nodebypath api w ⟨cwd, some r⟩ [SLASH] wu wn = ⟨some r, true, none, none⟩ ∧
      nodebypath api w ⟨cwd, some r⟩ (SLASH :: SLASH :: IN) wu wn
        = ⟨some i, false, none, none⟩ ∧
      nodebypath api w ⟨cwd, some r⟩ (SLASH :: SLASH :: BIN) wu wn
        = ⟨some b, false, none, none⟩ := by
  have e1 : splitPath [SLASH] = some ⟨[[], []], false, 0⟩ := by decide
  have e2 : splitPath (SLASH :: SLASH :: IN) = some ⟨[[], [], IN], false, 0⟩ := by decide
  have e3 : splitPath (SLASH :: SLASH :: BIN) = some ⟨[[], [], BIN], false, 0⟩ := by decide
  refine ⟨?_, ?_, ?_⟩
  · rw [nodebypath_local api w _ _ wu wn _ e1]
    simp [startNode, walk_cons, walk_nil, DOT, DOTDOT]
  · rw [nodebypath_local api w _ _ wu wn _ e2]
    simp [startNode, hi, walk_nil]
  · rw [nodebypath_local api w _ _ wu wn _ e3]
    simp [startNode, hb, walk_nil, IN, BIN]

theorem nodebypath_roots_witness :
    nodebypath simApi ⟨demoNodes, []⟩ ⟨UNDEF, some ⟨1, .TYPE_ROOT, [], UNDEF⟩⟩ [SLASH] false false
        = ⟨some ⟨1, .TYPE_ROOT, [], UNDEF⟩, true, none, none⟩ ∧
      nodebypath simApi ⟨demoNodes, []⟩ ⟨UNDEF, some ⟨1, .TYPE_ROOT, [], UNDEF⟩⟩
          (SLASH :: SLASH :: IN) false false
        = ⟨some ⟨6, .TYPE_INCOMING, [], UNDEF⟩, false, none, none⟩ ∧
      nodebypath simApi ⟨demoNodes, []⟩ ⟨UNDEF, some ⟨1, .TYPE_ROOT, [], UNDEF⟩⟩
          (SLASH :: SLASH :: BIN) false false
        = ⟨some ⟨7, .TYPE_RUBBISH, [], UNDEF⟩, false, none, none⟩ :=
  nodebypath_roots simApi ⟨demoNodes, []⟩ UNDEF ⟨1, .TYPE_ROOT, [], UNDEF⟩
    ⟨6, .TYPE_INCOMING, [], UNDEF⟩ ⟨7, .TYPE_RUBBISH, [], UNDEF⟩ false false
    (by decide) (by decide)

/-- C12: let the path be split into the components `c` of a local path, let
the walk start at component `l0`, and let the components from there be
`pre ++ s :: rest`, where the components `pre` resolve to the node `P` and `s`
is not empty, not `.` and not `..` and names no child of `P`.  With capture
requested and `s` the last component, `nodebypath` returns `P` and stores `s`
as the name part.  Without capture, or when components follow `s`, it returns
`NULL` and stores nothing.  A path that resolves to a node without capture
resolves to the same node with capture, and no name part is stored. -/
theorem nodebypath_name_capture {W : Type} (api : MegaApi W) (w : W) (g : Globals)
    (p : CStr) (wu : Bool) (c pre : List CStr) (s : CStr) (rest : List CStr)
    (n0 : Option MegaNode) (sh0 : Bool) (l0 : Nat) (P : MegaNode) (shP : Bool)
    (hsplit : splitPath p = some ⟨c, false, 0⟩)
    (hstart : startNode api w g c = some (n0, sh0, l0))
    (hc : c.drop l0 = pre ++ s :: rest)
    (hpre : walk api w false n0 sh0 pre = ⟨some P, shP, none, none⟩)
    (hs : s ≠ [] ∧ s ≠ DOT ∧ s ≠ DOTDOT)
    (hchild : api.getChildNode w P s = none) :
    (rest = [] → nodebypath api w g p wu true = ⟨some P, shP, none, some s⟩) ∧
      nodebypath api w g p wu false = ⟨none, false, none, none⟩ ∧
      (rest ≠ [] → nodebypath api w g p wu true = ⟨none, false, none, none⟩) ∧
      (∀ q, (nodebypath api w g q wu false).node ≠ none →
        nodebypath api w g q wu true = nodebypath api w g q wu false ∧
        (nodebypath api w g q wu true).namepart = none) := by
  have hw : ∀ wn, nodebypath api w g p wu wn
      = if wn = true ∧ rest = [] then ⟨some P, shP, none, some s⟩ else Resolved.null := by
    intro wn
    rw [nodebypath_local api w g p wu wn c hsplit, hstart]
    simp only [hc]
    rw [walk_append_resolved api w pre n0 sh0 P shP hpre wn (s :: rest), walk_cons]
    simp [hs.1, hs.2.1, hs.2.2, hchild]
  refine ⟨fun hr => ?_, ?_, fun hr => ?_, fun q hq => nodebypath_capture_of_resolved api w g q wu hq⟩
  · rw [hw]; simp [hr]
  · rw [hw]; simp [Resolved.null]
  · rw [hw]; simp [hr, Resolved.null]

theorem nodebypath_name_capture_witness :
    nodebypath simApi ⟨demoNodes, []⟩ demoGlobals [47, 98, 47, 104] false true
        = ⟨some ⟨3, .TYPE_FOLDER, [98], 1⟩, false, none, some [104]⟩ ∧
      nodebypath simApi ⟨demoNodes, []⟩ demoGlobals [47, 98, 47, 104] false false
        = ⟨none, false, none, none⟩ :=
  have h := nodebypath_name_capture simApi ⟨demoNodes, []⟩ demoGlobals [47, 98, 47, 104] false
    [[], [98], [104]] [[98]] [104] [] (some ⟨1, .TYPE_ROOT, [], UNDEF⟩) true 1
    ⟨3, .TYPE_FOLDER, [98], 1⟩ false
    (by decide) (by decide) (by decide) (by decide) (by decide) (by decide)
  ⟨h.1 rfl, h.2.1⟩

/-- C13, as stated, fails: the empty path is a local path whose first (and
only) component is empty, and it resolves to the node of `cwd`, so two values
of `cwd` give two results. -/
theorem nodebypath_empty_path_relative :
    splitPath [] = some ⟨[[]], false, 0⟩ ∧
      nodebypath simApi ⟨demoNodes, []⟩ ⟨2, some ⟨1, .TYPE_ROOT, [], UNDEF⟩⟩ [] false false
        = ⟨some ⟨2, .TYPE_FOLDER, [97], 1⟩, false, none, none⟩ ∧
      nodebypath simApi ⟨demoNodes, []⟩ ⟨3, some ⟨1, .TYPE_ROOT, [], UNDEF⟩⟩ [] false false
        = ⟨some ⟨3, .TYPE_FOLDER, [98], 1⟩, false, none, none⟩ := by
  decide

/-- C13, amended: if a local path has more than one component and the first
is empty, then `nodebypath` returns the same result for any two values of
`cwd`.  This is so for every correctly encoded path without backslash and `:`
that begins with `/`. -/
theorem nodebypath_absolute {W : Type} (api : MegaApi W) (w : W) (r : Option MegaNode)
    (cwd1 cwd2 : Nat) (p : CStr) (wu wn : Bool) (st : SplitState)
    (hsplit : splitPath p = some st) (hlocal : st.remote = false)
    (hlen : 1 < st.c.length) (hfirst : st.c.head? = some []) :
    nodebypath api w ⟨cwd1, r⟩ p wu wn = nodebypath api w ⟨cwd2, r⟩ p wu wn ∧
      ∀ q, utf8Valid q = true → (∀ b ∈ q, b ≠ BACKSLASH ∧ b ≠ COLON) →
        nodebypath api w ⟨cwd1, r⟩ (SLASH :: q) wu wn
          = nodebypath api w ⟨cwd2, r⟩ (SLASH :: q) wu wn := by
  have gen : ∀ (p : CStr) (st : SplitState), splitPath p = some st → st.remote = false →
      1 < st.c.length → st.c.head? = some [] →
      nodebypath api w ⟨cwd1, r⟩ p wu wn = nodebypath api w ⟨cwd2, r⟩ p wu wn := by
    intro p st hsplit hlocal hlen hfirst
    have h0 : st.c.getD 0 [] = [] := by
      cases hc : st.c with
      | nil => simp [hc] at hlen
      | cons a t => simpa [hc] using hfirst
    unfold nodebypath
    simp only [hsplit, hlocal, hlen, h0, and_self, if_true]
  refine ⟨gen p st hsplit hlocal hlen hfirst, fun q henc hs => ?_⟩
  obtain ⟨c1, x, h1, -⟩ := splitLoop_segments q 0 0 [] [] henc (by omega) hs
  have e : splitPath (SLASH :: q) = some ⟨[[]] ++ c1 ++ [x], false, 0⟩ := by
    unfold splitPath
    rw [splitLoop_slash]
    exact (h1 _ _).1
  exact gen _ _ e rfl (by simp) (by simp)

theorem nodebypath_absolute_witness :
    nodebypath simApi ⟨demoNodes, []⟩ ⟨2, some ⟨1, .TYPE_ROOT, [], UNDEF⟩⟩ [47, 98] false false
      = nodebypath simApi ⟨demoNodes, []⟩ ⟨3, some ⟨1, .TYPE_ROOT, [], UNDEF⟩⟩ [47, 98]
          false false :=
  (nodebypath_absolute simApi ⟨demoNodes, []⟩ (some ⟨1, .TYPE_ROOT, [], UNDEF⟩) 2 3 [47, 98]
    false false ⟨[[], [98]], false, 0⟩ (by decide) rfl (by decide) (by decide)).1

/-- C14: when `cwd` is a node whose parent lookup yields no node, the path
`..` resolves to `NULL`, and so does every path that begins with `../`, with
or without capture; nothing is stored through `user` or `namepart`. -/
theorem nodebypath_dotdot_at_root {W : Type} (api : MegaApi W) (w : W) (g : Globals)
    (r : MegaNode) (wu wn : Bool)
    (hcwd : api.getNodeByHandle w g.cwd = some r) (hparent : api.getParentNode w r = none) :
    nodebypath api w g DOTDOT wu wn = ⟨none, false, none, none⟩ ∧
      ∀ q, nodebypath api w g (DOTDOT ++ SLASH :: q) wu wn = ⟨none, false, none, none⟩ := by
  refine ⟨?_, fun q => ?_⟩
  · have e : splitPath DOTDOT = some ⟨[DOTDOT], false, 0⟩ := by decide
    rw [nodebypath_local api w g _ wu wn _ e]
    simp [startNode, DOTDOT, hcwd, walk_cons, DOT, hparent, walk_none, Resolved.null]
  · have e : splitPath (DOTDOT ++ SLASH :: q) = splitLoop 0 [] [] [DOTDOT] false q := by
      unfold splitPath
      simp only [DOTDOT, List.cons_append, List.nil_append]
      rw [splitLoop_ascii _ _ _ _ _ _ (by decide) (by decide) (by decide) (by decide) (by decide),
        splitLoop_ascii _ _ _ _ _ _ (by decide) (by decide) (by decide) (by decide) (by decide),
        splitLoop_slash]
      rfl
    cases hres : splitLoop 0 [] [] [DOTDOT] false q with
    | none =>
      unfold nodebypath
      rw [e, hres]
      rfl
    | some st =>
      obtain ⟨⟨cs, hcs⟩, -, hrem⟩ := splitLoop_grows _ _ _ _ _ _ st hres
      have hrem' : st.remote = false := hrem (by simp)
      unfold nodebypath
      rw [e, hres]
      simp only [hrem', hcs, Bool.false_eq_true, if_false]
      by_cases hl : st.l = 0
      · simp [hl, DOTDOT, hcwd, walk_cons, DOT, hparent, walk_none, Resolved.null]
      · simp [hl, Resolved.null]

theorem nodebypath_dotdot_at_root_witness :
    nodebypath simApi ⟨demoNodes, []⟩ ⟨1, some ⟨1, .TYPE_ROOT, [], UNDEF⟩⟩ DOTDOT false true
        = ⟨none, false, none, none⟩ ∧
      nodebypath simApi ⟨demoNodes, []⟩ ⟨1, some ⟨1, .TYPE_ROOT, [], UNDEF⟩⟩
          (DOTDOT ++ SLASH :: [120]) false true = ⟨none, false, none, none⟩ :=
  have h := nodebypath_dotdot_at_root simApi ⟨demoNodes, []⟩
    ⟨1, some ⟨1, .TYPE_ROOT, [], UNDEF⟩⟩ ⟨1, .TYPE_ROOT, [], UNDEF⟩ false true
    (by decide) (by decide)
  ⟨h.1, h.2 [120]⟩

/-- C15, as stated, fails: with `cwd` at the root, `a` a child of `cwd` and
`f` a child of `a`, the relative path `a//f` resolves to `f`; no lookup with
the empty name is made. -/
theorem nodebypath_doubled_slash_resolves :
    simApi.getChildNode ⟨demoNodes, []⟩ ⟨1, .TYPE_ROOT, [], UNDEF⟩ [97]
        = some ⟨2, .TYPE_FOLDER, [97], 1⟩ ∧
      simApi.getChildNode ⟨demoNodes, []⟩ ⟨2, .TYPE_FOLDER, [97], 1⟩ [102]
        = some ⟨4, .TYPE_FILE, [102], 2⟩ ∧
      nodebypath simApi ⟨demoNodes, []⟩ ⟨1, some ⟨1, .TYPE_ROOT, [], UNDEF⟩⟩
          [97, SLASH, SLASH, 102] false false
        = ⟨some ⟨4, .TYPE_FILE, [102], 2⟩, false, none, none⟩ := by
  decide

/-- C15, amended: an empty component that is not at a reserved leading
position is passed over without a lookup.  For every correctly encoded
relative path with a doubled slash and without backslash and `:`,
`nodebypath` returns what it returns for the path with a single slash there;
so `a//b`, with `a` a child of `cwd` and `b` a child of `a`, resolves to
`b`. -/
theorem nodebypath_doubled_slash {W : Type} (api : MegaApi W) (w : W) (g : Globals)
    (p1 p2 : CStr) (wu wn : Bool)
    (henc1 : utf8Valid p1 = true) (henc2 : utf8Valid p2 = true)
    (hs1 : ∀ b ∈ p1, b ≠ BACKSLASH ∧ b ≠ COLON) (hs2 : ∀ b ∈ p2, b ≠ BACKSLASH ∧ b ≠ COLON)
    (hrel : ∃ b u, p1 = b :: u ∧ b ≠ SLASH) :
    nodebypath api w g (p1 ++ SLASH :: SLASH :: p2) wu wn
        = nodebypath api w g (p1 ++ SLASH :: p2) wu wn ∧
      ∀ (a b : CStr) (N A B : MegaNode),
        utf8Valid a = true → utf8Valid b = true → noSpecial a → noSpecial b →
        a ≠ [] → a ≠ DOT → a ≠ DOTDOT → b ≠ [] → b ≠ DOT → b ≠ DOTDOT →
        api.getNodeByHandle w g.cwd = some N → api.getChildNode w N a = some A →
        api.getChildNode w A b = some B →
        nodebypath api w g (a ++ SLASH :: SLASH :: b) wu wn = ⟨some B, false, none, none⟩ := by
  constructor
  · obtain ⟨c1, x, e1, e1s, hhead⟩ := splitPath_segments p1 henc1 hs1
    obtain ⟨c2, x2, e2, -⟩ := splitLoop_segments p2 0 0 [] [] henc2 (by omega) hs2
    have hd : splitPath (p1 ++ SLASH :: SLASH :: p2)
        = some ⟨(c1 ++ [x]) ++ [] :: (c2 ++ [x2]), false, 0⟩ := by
      rw [e1s, splitLoop_slash, (e2 _ _).1]
      simp
    have hsg : splitPath (p1 ++ SLASH :: p2) = some ⟨(c1 ++ [x]) ++ (c2 ++ [x2]), false, 0⟩ := by
      rw [e1s, (e2 _ _).1]
      simp
    have hh := hhead hrel
    rw [nodebypath_local api w g _ wu wn _ hd, nodebypath_local api w g _ wu wn _ hsg,
      startNode_relative api w g _ (by
        cases c1 with
        | nil => simpa using hh
        | cons a t => simpa using hh),
      startNode_relative api w g _ (by
        cases c1 with
        | nil => simpa using hh
        | cons a t => simpa using hh)]
    simp only [List.drop_zero]
    exact walk_insert_empty api w wn _ _ _ _ (by simp)
  · intro a b N A B hea heb hsa hsb ha0 ha1 ha2 hb0 hb1 hb2 hN hA hB
    have e : splitPath (a ++ SLASH :: SLASH :: b) = some ⟨[a, [], b], false, 0⟩ := by
      have h1 := splitLoop_plain a 0 0 [] [] [] false (SLASH :: SLASH :: b) hea (by omega) hsa
      have h2 := splitLoop_plain b 0 0 [] [] [a, []] false [] heb (by omega) hsb
      simp only [List.append_nil, List.nil_append] at h1 h2
      unfold splitPath
      rw [h1, splitLoop_slash, splitLoop_slash]
      simp only [List.nil_append, List.append_nil, List.cons_append]
      rw [h2, splitLoop_nil]
      simp [splitAtEnd]
    rw [nodebypath_local api w g _ wu wn _ e, startNode_relative api w g _ (by simpa using ha0)]
    have hd1 : ([] : CStr) ≠ DOT := by decide
    have hd2 : ([] : CStr) ≠ DOTDOT := by decide
    simp [hN, walk_cons, walk_nil, ha0, ha1, ha2, hb0, hb1, hb2, hA, hB, hd1, hd2]

theorem nodebypath_doubled_slash_witness :
    nodebypath simApi ⟨demoNodes, []⟩ ⟨1, some ⟨1, .TYPE_ROOT, [], UNDEF⟩⟩
        ([97] ++ SLASH :: SLASH :: [102]) false false
      = nodebypath simApi ⟨demoNodes, []⟩ ⟨1, some ⟨1, .TYPE_ROOT, [], UNDEF⟩⟩
        ([97] ++ SLASH :: [102]) false false :=
  (nodebypath_doubled_slash simApi ⟨demoNodes, []⟩ ⟨1, some ⟨1, .TYPE_ROOT, [], UNDEF⟩⟩
    [97] [102] false false (by decide) (by decide) (by decide) (by decide)
    ⟨97, [], rfl, by decide⟩).1

/-- C16, as stated, fails: the relative path `a/` followed by the byte `0xE9`
(not correct UTF-8) has no backslash and no `:`; with `cwd` at the root it
resolves to the folder `a`, and the same path followed by `/.` resolves to
`NULL`, because the byte `0xE9` makes the loop pass over the `/`. -/
theorem nodebypath_trailing_dot_stray_lead :
    splitPath [97, SLASH, 0xE9] = some ⟨[[97]], false, 0⟩ ∧
      nodebypath simApi ⟨demoNodes, []⟩ ⟨1, some ⟨1, .TYPE_ROOT, [], UNDEF⟩⟩
          [97, SLASH, 0xE9] false false
        = ⟨some ⟨2, .TYPE_FOLDER, [97], 1⟩, false, none, none⟩ ∧
      nodebypath simApi ⟨demoNodes, []⟩ ⟨1, some ⟨1, .TYPE_ROOT, [], UNDEF⟩⟩
          ([97, SLASH, 0xE9] ++ SLASH :: DOT) false false
        = ⟨none, false, none, none⟩ := by
  decide

/-- C16, amended: for every correctly encoded relative path `p` (first
component not empty) without backslash and `:`, and without capture,
`nodebypath` returns for `p/.` what it returns for `p`. -/
theorem nodebypath_trailing_dot {W : Type} (api : MegaApi W) (w : W) (g : Globals)
    (p : CStr) (wu : Bool)
    (henc : utf8Valid p = true) (hs : ∀ b ∈ p, b ≠ BACKSLASH ∧ b ≠ COLON)
    (hrel : ∃ b u, p = b :: u ∧ b ≠ SLASH) :
    nodebypath api w g (p ++ SLASH :: DOT) wu false = nodebypath api w g p wu false := by
  obtain ⟨c1, x, e1, e1s, hhead⟩ := splitPath_segments p henc hs
  have hd : splitPath (p ++ SLASH :: DOT) = some ⟨(c1 ++ [x]) ++ [DOT], false, 0⟩ := by
    rw [e1s, DOT,
      splitLoop_ascii _ _ _ _ _ _ (by decide) (by decide) (by decide) (by decide) (by decide),
      splitLoop_nil]
    simp [splitAtEnd]
  have hh := hhead hrel
  rw [nodebypath_local api w g _ wu false _ hd, nodebypath_local api w g _ wu false _ e1,
    startNode_relative api w g _ hh,
    startNode_relative api w g _ (by
      cases c1 with
      | nil => simpa using hh
      | cons a t => simpa using hh)]
  simp only [List.drop_zero]
  exact walk_snoc_dot api w _ _ _

theorem nodebypath_trailing_dot_witness :
    nodebypath simApi ⟨demoNodes, []⟩ demoGlobals ([102] ++ SLASH :: DOT) false false
      = nodebypath simApi ⟨demoNodes, []⟩ demoGlobals [102] false false :=
  nodebypath_trailing_dot simApi ⟨demoNodes, []⟩ demoGlobals [102] false (by decide) (by decide)
    ⟨102, [], rfl, by decide⟩

/-- C17, as stated, fails: the string `u` = byte `0xE9` alone (not correct
UTF-8) has no backslash, `:` or `/`, yet the path `u:` is split into the one
component `u:` with the namespace flag unset, and no user is stored. -/
theorem nodebypath_namespace_stray_lead :
    noSpecial [0xE9] ∧
      splitPath ([0xE9] ++ [COLON]) = some ⟨[[0xE9, COLON]], false, 0⟩ ∧
      splitPath ([0xE9] ++ [COLON]) ≠ some ⟨[[0xE9], []], true, 0⟩ ∧
      (nodebypath simApi ⟨demoNodes, []⟩ demoGlobals ([0xE9] ++ [COLON]) true false).user
        = none := by
  decide

/-- C17, amended: for a correctly encoded string `u` without backslash, `:`
and `/`, the path `u:` is split into the components `u` and the empty one with
the namespace flag set, `nodebypath` returns `NULL` for it and stores `u`
through `user` (when that pointer is given); every path that continues after
`u:` resolves to `NULL`; every path split with the namespace flag set resolves
to `NULL`; and when the components are not exactly two with the second empty,
as for `u:s` with `s` not empty, nothing is stored. -/
theorem nodebypath_namespace {W : Type} (api : MegaApi W) (w : W) (g : Globals)
    (u : CStr) (wu wn : Bool) (henc : utf8Valid u = true) (hu : noSpecial u) :
    splitPath (u ++ [COLON]) = some ⟨[u, []], true, 0⟩ ∧
      nodebypath api w g (u ++ [COLON]) wu wn
        = ⟨none, false, if wu = true then some u else none, none⟩ ∧
      (∀ rest, (nodebypath api w g (u ++ COLON :: rest) wu wn).node = none ∧
        (nodebypath api w g (u ++ COLON :: rest) wu wn).namepart = none) ∧
      (∀ p st, splitPath p = some st → st.remote = true →
        (nodebypath api w g p wu wn).node = none) ∧
      (∀ p st, splitPath p = some st → st.remote = true →
        ¬ (st.c.length = 2 ∧ st.c.getD 1 [] = []) →
        nodebypath api w g p wu wn = ⟨none, false, none, none⟩) ∧
      (∀ s, utf8Valid s = true → noSpecial s → s ≠ [] →
        nodebypath api w g (u ++ COLON :: s) wu wn = ⟨none, false, none, none⟩) := by
  have hcolon : ∀ rest, splitPath (u ++ COLON :: rest) = splitLoop 0 [] [] [u] true rest := by
    intro rest
    have h1 := splitLoop_plain u 0 0 [] [] [] false (COLON :: rest) henc (by omega) hu
    simp only [List.nil_append] at h1
    unfold splitPath
    rw [h1, splitLoop_colon]
    simp
  have e1 : splitPath (u ++ [COLON]) = some ⟨[u, []], true, 0⟩ := by
    rw [hcolon, splitLoop_nil]
    simp [splitAtEnd]
  have hnode : ∀ p st, splitPath p = some st → st.remote = true →
      (nodebypath api w g p wu wn).node = none ∧ (nodebypath api w g p wu wn).namepart = none := by
    intro p st h hr
    rw [nodebypath_remote api w g p wu wn st h hr]
    split_ifs <;> simp [Resolved.null]
  refine ⟨e1, ?_, fun rest => ?_, fun p st h hr => (hnode p st h hr).1, fun p st h hr hform => ?_,
    fun s hes hss hs0 => ?_⟩
  · rw [nodebypath_remote api w g _ wu wn _ e1 rfl]
    simp
  · cases hres : splitLoop 0 [] [] [u] true rest with
    | none =>
      unfold nodebypath
      rw [hcolon, hres]
      simp [Resolved.null]
    | some st =>
      obtain ⟨-, hrem, -⟩ := splitLoop_grows _ _ _ _ _ _ st hres
      exact hnode _ st (by rw [hcolon, hres]) (hrem rfl)
  · rw [nodebypath_remote api w g p wu wn st h hr]
    have : ¬ (st.l = 0 ∧ st.c.length = 2 ∧ st.c.getD 1 [] = []) := fun hx => hform hx.2
    simp only [this, if_false]
    rfl
  · have h2 := splitLoop_plain s 0 0 [] [] [u] true [] hes (by omega) hss
    simp only [List.append_nil, List.nil_append] at h2
    have e : splitPath (u ++ COLON :: s) = some ⟨[u, s], true, 0⟩ := by
      rw [hcolon, h2, splitLoop_nil]
      simp [splitAtEnd]
    rw [nodebypath_remote api w g _ wu wn _ e rfl]
    simp [hs0, Resolved.null]

theorem nodebypath_namespace_witness :
    utf8Valid [117] = true ∧ noSpecial [117] ∧
      nodebypath simApi ⟨demoNodes, []⟩ demoGlobals ([117] ++ [COLON]) true false
        = ⟨none, false, some [117], none⟩ :=
  ⟨by decide, by decide,
    (nodebypath_namespace simApi ⟨demoNodes, []⟩ demoGlobals [117] true false
      (by decide) (by decide)).2.1⟩

/-! ## The passes of `mkdir` -/

theorem actUponCreateFolder_world {W : Type} (e : Exec W) (code : Int) :
    (actUponCreateFolder e code).2.world = e.world ∧
      (actUponCreateFolder e code).2.issued = e.issued := by
  unfold actUponCreateFolder
  split_ifs <;> simp [Exec.print]

/-- Text without `/` joins the text read since the last cut. -/
theorem mkdirPasses_append (x : CStr) :
    ∀ (acc rest : CStr), SLASH ∉ x →
      mkdirPasses acc (x ++ rest) = mkdirPasses (acc ++ x) rest := by
  induction x with
  | nil => intro acc rest _; simp
  | cons b x ih =>
    intro acc rest h
    have hb : b ≠ SLASH := fun hb => h (by simp [hb])
    have hx : SLASH ∉ x := fun hx => h (List.mem_cons_of_mem _ hx)
    rw [List.cons_append, mkdirPasses, if_neg hb, ih _ _ hx]
    simp

theorem lastOnly_cons_false (x : CStr) (ps : List (CStr × Bool)) (h : lastOnly ps) :
    lastOnly ((x, false) :: ps) := by
  cases ps with
  | nil => trivial
  | cons q r => exact ⟨rfl, h⟩

theorem mkdirPasses_lastOnly (rest : CStr) : ∀ acc, lastOnly (mkdirPasses acc rest) := by
  induction rest with
  | nil =>
    intro acc
    rw [mkdirPasses]
    split_ifs <;> trivial
  | cons b rest ih =>
    intro acc
    rw [mkdirPasses]
    split_ifs
    · exact lastOnly_cons_false _ _ (ih _)
    · exact ih _

/-- The names cut by the passes have no `/`. -/
theorem mkdirPasses_noSlash (rest : CStr) :
    ∀ acc, SLASH ∉ acc → ∀ p ∈ mkdirPasses acc rest, SLASH ∉ p.1 := by
  induction rest with
  | nil =>
    intro acc hacc p hp
    rw [mkdirPasses] at hp
    split_ifs at hp
    · simp at hp
    · simp only [List.mem_singleton] at hp
      subst hp
      exact hacc
  | cons b rest ih =>
    intro acc hacc p hp
    rw [mkdirPasses] at hp
    split_ifs at hp with hb
    · rcases List.mem_cons.1 hp with h | h
      · subst h; exact hacc
      · exact ih [] (by simp) p h
    · refine ih (acc ++ [b]) ?_ p hp
      intro hmem
      rcases List.mem_append.1 hmem with h | h
      · exact hacc h
      · simp only [List.mem_singleton] at h
        exact hb h.symm

/-- The leaf names of joined names are those names. -/
theorem leafNames_joinLeaves (names : List CStr)
    (h : ∀ x ∈ names, x ≠ [] ∧ SLASH ∉ x) : leafNames (joinLeaves names) = names := by
  induction names with
  | nil => simp [joinLeaves, leafNames, mkdirPasses]
  | cons x r ih =>
    have hx := h x (List.mem_cons_self _ _)
    have hr : ∀ y ∈ r, y ≠ [] ∧ SLASH ∉ y := fun y hy => h y (List.mem_cons_of_mem _ hy)
    cases r with
    | nil =>
      have e := mkdirPasses_append x [] [] hx.2
      simp only [List.append_nil, List.nil_append] at e
      simp [joinLeaves, leafNames, e, mkdirPasses, hx.1]
    | cons y r =>
      have e := mkdirPasses_append x [] (SLASH :: joinLeaves (y :: r)) hx.2
      simp only [List.nil_append] at e
      have ih' := ih hr
      unfold leafNames at ih' ⊢
      rw [joinLeaves, e, mkdirPasses, if_pos rfl]
      simp only [List.map_cons, List.filter_cons, hx.1, ne_eq, not_false_eq_true, decide_True,
        if_true]
      rw [ih']

theorem leafNames_spec (path : CStr) : ∀ x ∈ leafNames path, x ≠ [] ∧ SLASH ∉ x := by
  intro x hx
  unfold leafNames at hx
  rw [List.mem_filter, List.mem_map] at hx
  obtain ⟨⟨p, hp, rfl⟩, hne⟩ := hx
  exact ⟨by simpa using hne, mkdirPasses_noSlash path [] (by simp) p hp⟩

/-- The requests of the loop, and the state it leaves, are those of the run
over the non-empty names of its passes. -/
theorem mkdirLoop_run {W : Type} (api : MegaApi W) (path : CStr) (ps : List (CStr × Bool)) :
    ∀ (e : Exec W) (cur : MegaNode), lastOnly ps →
      (mkdirLoop api path e cur ps).issued
          = e.issued ++ (mkdirRun api e.world cur
              ((ps.map Prod.fst).filter (fun x => decide (x ≠ [])))).1 ∧
        (mkdirLoop api path e cur ps).world
          = (mkdirRun api e.world cur
              ((ps.map Prod.fst).filter (fun x => decide (x ≠ [])))).2 := by
  induction ps with
  | nil => intro e cur _; simp [mkdirLoop, mkdirRun]
  | cons p ps ih =>
    intro e cur hlo
    obtain ⟨x, ll⟩ := p
    have hps : lastOnly ps := by
      cases ps with
      | nil => trivial
      | cons q r => exact hlo.2
    have hll : ll = true → ps = [] := by
      intro h
      cases ps with
      | nil => rfl
      | cons q r =>
        have := hlo.1
        simp [h] at this
    rw [mkdirLoop]
    by_cases hx : x = []
    · simp only [hx, ne_eq, not_true_eq_false, if_false, List.map_cons, List.filter_cons,
        decide_False, Bool.false_eq_true]
      by_cases hl : ll = true
      · simp [hl, hll hl, mkdirRun]
      · simp only [hl, if_false]
        exact ih e cur hps
    · simp only [hx, ne_eq, not_false_eq_true, if_true, List.map_cons, List.filter_cons,
        decide_True]
      rw [mkdirRun]
      cases hch : api.getChildNode e.world cur x with
      | some ex =>
        simp only []
        by_cases hl : ll = true
        · simp [hl, hll hl, mkdirRun, Exec.print]
        · simp only [hl, if_false]
          exact ih e ex hps
      | none =>
        simp only []
        have ha := actUponCreateFolder_world (Exec.issue api e (.createFolder x cur)).2
          (Exec.issue api e (.createFolder x cur)).1
        have hw : (actUponCreateFolder (Exec.issue api e (.createFolder x cur)).2
            (Exec.issue api e (.createFolder x cur)).1).2.world
            = (api.submit e.world (.createFolder x cur)).2 := by
          rw [ha.1]; rfl
        have hi : (actUponCreateFolder (Exec.issue api e (.createFolder x cur)).2
            (Exec.issue api e (.createFolder x cur)).1).2.issued
            = e.issued ++ [.createFolder x cur] := by
          rw [ha.2]; rfl
        rw [hw]
        cases hre : api.getChildNode (api.submit e.world (.createFolder x cur)).2 cur x with
        | none =>
          simp only [Exec.print]
          exact ⟨hi, hw⟩
        | some nn =>
          simp only []
          by_cases hl : ll = true
          · simp only [hl, if_true, hll hl, List.map_nil, List.filter_nil, mkdirRun,
              List.append_nil]
            exact ⟨hi, hw⟩
          · simp only [hl, if_false]
            have := ih (actUponCreateFolder (Exec.issue api e (.createFolder x cur)).2
              (Exec.issue api e (.createFolder x cur)).1).2 nn hps
            rw [hw, hi] at this
            simpa using this

/-- The requests of `mkdir` and the state it leaves, from the non-empty leaf
names of the path. -/
theorem mkdir_run {W : Type} (api : MegaApi W) (g : Globals) (w : W) (path : CStr)
    (cur : MegaNode) (hcwd : api.getNodeByHandle w g.cwd = some cur) :
    (mkdir api g w path).issued = (mkdirRun api w cur (leafNames path)).1 ∧
      (mkdir api g w path).world = (mkdirRun api w cur (leafNames path)).2 := by
  unfold mkdir leafNames
  simp only [hcwd]
  have := mkdirLoop_run api path (mkdirPasses [] path) ⟨w, [], []⟩ cur (mkdirPasses_lastOnly _ _)
  simpa using this

theorem createsAll_length {W : Type} (api : MegaApi W) (names : List CStr) :
    ∀ (w : W) (cur : MegaNode) (folders : List MegaNode),
      createsAll api w cur names folders = true → folders.length = names.length := by
  induction names with
  | nil =>
    intro w cur folders h
    cases folders with
    | nil => rfl
    | cons f fs => simp [createsAll] at h
  | cons x xs ih =>
    intro w cur folders h
    cases folders with
    | nil => simp [createsAll] at h
    | cons f fs =>
      simp only [createsAll, Bool.and_eq_true, decide_eq_true_eq] at h
      simp [ih _ _ _ h.2]

/-- Names that are all created head the run: their requests come first, and
the run continues from the last folder created. -/
theorem mkdirRun_created {W : Type} (api : MegaApi W) (names : List CStr) :
    ∀ (w : W) (cur : MegaNode) (folders : List MegaNode) (rest : List CStr),
      createsAll api w cur names folders = true →
      mkdirRun api w cur (names ++ rest)
        = (List.zipWith Request.createFolder names (cur :: folders)
            ++ (mkdirRun api
                (replay api w (List.zipWith Request.createFolder names (cur :: folders)))
                (folders.getLastD cur) rest).1,
          (mkdirRun api
                (replay api w (List.zipWith Request.createFolder names (cur :: folders)))
                (folders.getLastD cur) rest).2) := by
  induction names with
  | nil =>
    intro w cur folders rest h
    cases folders with
    | nil => simp [replay]
    | cons f fs => simp [createsAll] at h
  | cons x xs ih =>
    intro w cur folders rest h
    cases folders with
    | nil => simp [createsAll] at h
    | cons f fs =>
      simp only [createsAll, Bool.and_eq_true, decide_eq_true_eq] at h
      obtain ⟨⟨h1, h2⟩, h3⟩ := h
      rw [List.cons_append, mkdirRun]
      simp only [h1, h2]
      have hl : (f :: fs).getLastD cur = fs.getLastD f := by
        cases fs <;> rfl
      rw [ih _ _ _ rest h3, hl]
      simp [replay]

/-- Every request of the run is a `createFolder` for a name that the parent
did not have when the request was issued. -/
theorem mkdirRun_fresh {W : Type} (api : MegaApi W) (names : List CStr) :
    ∀ (w : W) (cur : MegaNode),
      (∀ r ∈ (mkdirRun api w cur names).1, ∃ name par, r = Request.createFolder name par) ∧
      ∀ pre name par post,
        (mkdirRun api w cur names).1 = pre ++ Request.createFolder name par :: post →
        api.getChildNode (replay api w pre) par name = none := by
  induction names with
  | nil =>
    intro w cur
    simp [mkdirRun]
  | cons x xs ih =>
    intro w cur
    rw [mkdirRun]
    cases hch : api.getChildNode w cur x with
    | some ex => exact ih w ex
    | none =>
      simp only []
      cases hre : api.getChildNode (api.submit w (.createFolder x cur)).2 cur x with
      | none =>
        simp only []
        refine ⟨fun r hr => ⟨x, cur, by simpa using hr⟩, fun pre name par post h => ?_⟩
        cases pre with
        | nil =>
          simp only [List.nil_append, List.cons.injEq, Request.createFolder.injEq] at h
          obtain ⟨⟨rfl, rfl⟩, -⟩ := h
          simpa [replay] using hch
        | cons a pre =>
          simp only [List.cons_append, List.cons.injEq] at h
          have := h.2
          simp at this
      | some nn =>
        simp only []
        obtain ⟨ih1, ih2⟩ := ih (api.submit w (.createFolder x cur)).2 nn
        refine ⟨fun r hr => ?_, fun pre name par post h => ?_⟩
        · rcases List.mem_cons.1 hr with h | h
          · exact ⟨x, cur, h⟩
          · exact ih1 r h
        · cases pre with
          | nil =>
            simp only [List.nil_append, List.cons.injEq, Request.createFolder.injEq] at h
            obtain ⟨⟨rfl, rfl⟩, -⟩ := h
            simpa [replay] using hch
          | cons a pre =>
            simp only [List.cons_append, List.cons.injEq] at h
            obtain ⟨rfl, h⟩ := h
            have := ih2 pre name par post h
            simpa [replay] using this

/-! ## The command `mkdir`: claims -/

/-- C18: `mkdir` on the path made of the non-empty leaf names `names`, with
`cwd` a live node `cur`.  When every name is absent as it is reached and the
lookup after each `createFolder` finds the new folder, exactly one
`createFolder` per name is issued, in path order, the first under `cur` and
each later one under the folder found after the previous creation.  When the
names `pre` are created so and the next name `x` is absent and is still not
found after its `createFolder`, the requests are those for `pre` followed by
the one for `x`: nothing is issued for the names after `x`. -/
theorem mkdir_creates_chain {W : Type} (api : MegaApi W) (g : Globals) (w : W)
    (names : List CStr) (cur : MegaNode)
    (hcwd : api.getNodeByHandle w g.cwd = some cur)
    (hnames : ∀ x ∈ names, x ≠ [] ∧ SLASH ∉ x) :
    (∀ folders, createsAll api w cur names folders = true →
        (mkdir api g w (joinLeaves names)).issued
          = List.zipWith Request.createFolder names (cur :: folders) ∧
        (mkdir api g w (joinLeaves names)).issued.length = names.length ∧
        (mkdir api g w (joinLeaves names)).world
          = replay api w (List.zipWith Request.createFolder names (cur :: folders))) ∧
      (∀ pre x post folders, names = pre ++ x :: post →
        createsAll api w cur pre folders = true →
        api.getChildNode
          (replay api w (List.zipWith Request.createFolder pre (cur :: folders)))
          (folders.getLastD cur) x = none →
        api.getChildNode
          (api.submit (replay api w (List.zipWith Request.createFolder pre (cur :: folders)))
            (.createFolder x (folders.getLastD cur))).2
          (folders.getLastD cur) x = none →
        (mkdir api g w (joinLeaves names)).issued
          = List.zipWith Request.createFolder pre (cur :: folders)
            ++ [.createFolder x (folders.getLastD cur)]) := by
  obtain ⟨hi, hw⟩ := mkdir_run api g w (joinLeaves names) cur hcwd
  rw [leafNames_joinLeaves names hnames] at hi hw
  refine ⟨fun folders hall => ?_, fun pre x post folders hsplit hall habs hre => ?_⟩
  · have h := mkdirRun_created api names w cur folders [] hall
    simp only [List.append_nil, mkdirRun] at h
    have hlen := createsAll_length api names w cur folders hall
    rw [hi, hw, h]
    refine ⟨rfl, ?_, rfl⟩
    simp [List.length_zipWith, hlen]
  · have h := mkdirRun_created api pre w cur folders (x :: post) hall
    rw [hi, hsplit, h]
    simp only [mkdirRun, habs, hre]

theorem mkdir_creates_chain_witness :
    (mkdir simApi demoGlobals ⟨demoNodes, []⟩ (joinLeaves [[120], [121], [122]])).issued
        = [.createFolder [120] ⟨2, .TYPE_FOLDER, [97], 1⟩,
           .createFolder [121] ⟨8, .TYPE_FOLDER, [120], 2⟩,
           .createFolder [122] ⟨9, .TYPE_FOLDER, [121], 8⟩] ∧
      (mkdir simApi demoGlobals ⟨demoNodes, [API_OK, API_EACCESS]⟩
          (joinLeaves [[120], [121], [122]])).issued
        = [.createFolder [120] ⟨2, .TYPE_FOLDER, [97], 1⟩,
           .createFolder [121] ⟨8, .TYPE_FOLDER, [120], 2⟩] :=
  ⟨((mkdir_creates_chain simApi demoGlobals ⟨demoNodes, []⟩ [[120], [121], [122]]
        ⟨2, .TYPE_FOLDER, [97], 1⟩ (by decide) (by decide)).1
      [⟨8, .TYPE_FOLDER, [120], 2⟩, ⟨9, .TYPE_FOLDER, [121], 8⟩,
        ⟨10, .TYPE_FOLDER, [122], 9⟩] (by decide)).1,
    (mkdir_creates_chain simApi demoGlobals ⟨demoNodes, [API_OK, API_EACCESS]⟩
        [[120], [121], [122]] ⟨2, .TYPE_FOLDER, [97], 1⟩ (by decide) (by decide)).2
      [[120]] [121] [[122]] [⟨8, .TYPE_FOLDER, [120], 2⟩] rfl (by decide) (by decide)
      (by decide)⟩

/-- C19: with `cwd` a live node `cur`, every request `mkdir` issues is a
`createFolder` for a name that the parent did not have as a child when the
request was issued.  For a single leaf that names an existing child of `cur`,
nothing is issued and `Folder already exists` is logged.  When the first leaf
names an existing child and more follows, the loop goes on from that child. -/
theorem mkdir_existing_leaf {W : Type} (api : MegaApi W) (g : Globals) (w : W)
    (path : CStr) (cur : MegaNode)
    (hcwd : api.getNodeByHandle w g.cwd = some cur) :
    (∀ r ∈ (mkdir api g w path).issued, ∃ name par, r = Request.createFolder name par) ∧
      (∀ pre name par post,
        (mkdir api g w path).issued = pre ++ Request.createFolder name par :: post →
        api.getChildNode (replay api w pre) par name = none) ∧
      (∀ name ex, name ≠ [] → SLASH ∉ name → api.getChildNode w cur name = some ex →
        (mkdir api g w name).issued = [] ∧ (mkdir api g w name).world = w ∧
        (mkdir api g w name).out = [.folderAlreadyExists name]) ∧
      (∀ name q ex, name ≠ [] → SLASH ∉ name → api.getChildNode w cur name = some ex →
        mkdir api g w (name ++ SLASH :: q)
          = mkdirLoop api (name ++ SLASH :: q) ⟨w, [], []⟩ ex (mkdirPasses [] q)) := by
  obtain ⟨hi, -⟩ := mkdir_run api g w path cur hcwd
  obtain ⟨f1, f2⟩ := mkdirRun_fresh api (leafNames path) w cur
  refine ⟨?_, ?_, fun name ex hne hns hch => ?_, fun name q ex hne hns hch => ?_⟩
  · rw [hi]; exact f1
  · rw [hi]; exact f2
  · have e := mkdirPasses_append name [] [] hns
    simp only [List.append_nil, List.nil_append] at e
    unfold mkdir
    simp only [hcwd, e]
    rw [mkdirPasses, if_neg hne, mkdirLoop]
    simp [hne, hch, Exec.print]
  · have e := mkdirPasses_append name [] (SLASH :: q) hns
    simp only [List.nil_append] at e
    unfold mkdir
    simp only [hcwd, e]
    rw [mkdirPasses, if_pos rfl, mkdirLoop]
    simp [hne, hch]

theorem mkdir_existing_leaf_witness :
    (mkdir simApi demoGlobals ⟨demoNodes, []⟩ [102]).issued = [] ∧
      (mkdir simApi demoGlobals ⟨demoNodes, []⟩ [102]).out = [.folderAlreadyExists [102]] :=
  have h := (mkdir_existing_leaf simApi demoGlobals ⟨demoNodes, []⟩ [102]
    ⟨2, .TYPE_FOLDER, [97], 1⟩ (by decide)).2.2.1 [102] ⟨4, .TYPE_FILE, [102], 2⟩
    (by decide) (by decide) (by decide)
  ⟨h.1, h.2.2⟩

/-- C20: for every path and every state, `mkdir` issues the same requests, and
leaves the same state, as `mkdir` of the path with its empty leaves removed; a
leading `/` changes neither, so creation still starts at `cwd`. -/
theorem mkdir_skips_empty_leaves {W : Type} (api : MegaApi W) (g : Globals) (w : W)
    (path : CStr) :
    (mkdir api g w path).issued = (mkdir api g w (dropEmptyLeaves path)).issued ∧
      (mkdir api g w path).world = (mkdir api g w (dropEmptyLeaves path)).world ∧
      (mkdir api g w (SLASH :: path)).issued = (mkdir api g w path).issued ∧
      (mkdir api g w (SLASH :: path)).world = (mkdir api g w path).world := by
  cases hcwd : api.getNodeByHandle w g.cwd with
  | none => simp [mkdir, hcwd, Exec.print]
  | some cur =>
    obtain ⟨a1, a2⟩ := mkdir_run api g w path cur hcwd
    obtain ⟨b1, b2⟩ := mkdir_run api g w (dropEmptyLeaves path) cur hcwd
    obtain ⟨c1, c2⟩ := mkdir_run api g w (SLASH :: path) cur hcwd
    have e1 : leafNames (dropEmptyLeaves path) = leafNames path :=
      leafNames_joinLeaves _ (leafNames_spec path)
    have e2 : leafNames (SLASH :: path) = leafNames path := by
      simp [leafNames, mkdirPasses]
    rw [a1, a2, b1, b2, c1, c2, e1, e2]
    exact ⟨rfl, rfl, rfl, rfl⟩

/-! ## The commands `rm`, `cd`, `version` and the wait helpers: claims -/

theorem actUponDeleteNode_world {W : Type} (srl : Listener) (timeout : Int) (e : Exec W) :
    (actUponDeleteNode srl timeout e).2.world = e.world ∧
      (actUponDeleteNode srl timeout e).2.issued = e.issued := by
  unfold actUponDeleteNode
  simp only []
  split_ifs <;> simp [Exec.print]

theorem rmLoop_append {W : Type} (api : MegaApi W) (g : Globals) (ps qs : List CStr) :
    ∀ (f : Bool) (e : Exec W),
      rmLoop api g f e (ps ++ qs)
        = (rmLoop api g f e ps).bind fun r => rmLoop api g r.2 r.1 qs := by
  induction ps with
  | nil => intro f e; simp [rmLoop]
  | cons p ps ih =>
    intro f e
    rw [List.cons_append, rmLoop, rmLoop]
    by_cases hr : readsDeletedRoot g f p = true
    · simp [hr]
    · simp only [hr, if_false]
      cases (nodebypath api e.world g p false false).node with
      | none => exact ih f e
      | some n => exact ih _ _

/-- As long as no path reads the deleted object of `rootNode`, `rm` handles
the paths in order: after the paths `ps`, the next path `p` is resolved in the
state reached; if it resolves to a node exactly one request, `remove` of that
node, is added, whatever the requests before completed with, and if it does
not, none is added. -/
theorem rm_next_path {W : Type} (api : MegaApi W) (g : Globals) (f0 : Bool) (w : W)
    (ps : List CStr) (p : CStr) (e : Exec W) (f : Bool)
    (h : rm api g f0 w ps = some (e, f)) (hp : readsDeletedRoot g f p = false) :
    ∃ e1 f1, rm api g f0 w (ps ++ [p]) = some (e1, f1) ∧
      e1.issued = e.issued ++
        (match (nodebypath api e.world g p false false).node with
          | some n => [Request.remove n]
          | none => []) ∧
      e1.world = (match (nodebypath api e.world g p false false).node with
          | some n => (api.submit e.world (.remove n)).2
          | none => e.world) := by
  unfold rm at h ⊢
  rw [rmLoop_append, h]
  simp only [Option.some_bind, rmLoop, hp, Bool.false_eq_true, if_false]
  cases (nodebypath api e.world g p false false).node with
  | none => exact ⟨_, _, rfl, by simp, rfl⟩
  | some n =>
    refine ⟨_, _, rfl, ?_, ?_⟩
    · rw [(actUponDeleteNode_world _ _ _).2]; rfl
    · rw [(actUponDeleteNode_world _ _ _).1]; rfl

theorem rm_next_path_witness :
    ∃ e1 f1, rm simApi demoGlobals false ⟨demoNodes, [API_EACCESS]⟩ ([[102]] ++ [[103]])
        = some (e1, f1) ∧
      e1.issued = [.remove ⟨4, .TYPE_FILE, [102], 2⟩] ++ [.remove ⟨5, .TYPE_FILE, [103], 2⟩] ∧
      e1.world = ⟨[⟨1, .TYPE_ROOT, [], UNDEF⟩, ⟨2, .TYPE_FOLDER, [97], 1⟩,
        ⟨3, .TYPE_FOLDER, [98], 1⟩, ⟨4, .TYPE_FILE, [102], 2⟩,
        ⟨6, .TYPE_INCOMING, [], UNDEF⟩, ⟨7, .TYPE_RUBBISH, [], UNDEF⟩], []⟩ :=
  rm_next_path simApi demoGlobals false ⟨demoNodes, [API_EACCESS]⟩ [[102]] [103]
    ⟨⟨demoNodes, []⟩, [.remove ⟨4, .TYPE_FILE, [102], 2⟩], [.deleteAccessDenied]⟩ false
    rfl (by decide)

/-- C21 at its failing input.  The command `rm / /a`, the removal of the
account root being refused with `API_EACCESS`: the path `/` resolves to the
global `rootNode`, `remove` is issued for it and `delete nodeToDelete` deletes
the object of `rootNode`; the path `/a`, which on its own resolves to the
folder `a` and has it removed, then starts at the deleted object, and the run
has no defined behaviour instead of issuing `remove(a)`. -/
theorem rm_root_then_absolute :
    (nodebypath simApi ⟨demoNodes, []⟩ demoGlobals [SLASH, 97] false false).node
        = some ⟨2, .TYPE_FOLDER, [97], 1⟩ ∧
      (rm simApi demoGlobals false ⟨demoNodes, []⟩ [[SLASH, 97]]).map
          (fun r => (r.1.issued, r.2))
        = some ([.remove ⟨2, .TYPE_FOLDER, [97], 1⟩], false) ∧
      (rm simApi demoGlobals false ⟨demoNodes, [API_EACCESS]⟩ [[SLASH]]).map
          (fun r => (r.1.world, r.1.issued, r.1.out, r.2))
        = some (⟨demoNodes, []⟩, [.remove ⟨1, .TYPE_ROOT, [], UNDEF⟩],
            [.deleteAccessDenied], true) ∧
      (rm simApi demoGlobals false ⟨demoNodes, [API_EACCESS]⟩
          [[SLASH], [SLASH, 97]]).isNone = true := by
  decide

/-- C22: `cd path` while logged in, when resolving the path does not read a
deleted object of `rootNode`: `cwd` is left as it is when the path resolves to
a file or does not resolve, and becomes the handle of the node when the path
resolves to a node that is not a file.  `cd` without an argument, the object
of `rootNode` not deleted, sets `cwd` to the handle of the account root held
in `rootNode`. -/
theorem cd_sets_cwd {W : Type} (api : MegaApi W) (w : W) (g : Globals) (rootDeleted : Bool)
    (path : CStr) (more : List CStr) (hrd : readsDeletedRoot g rootDeleted path = false) :
    (∀ n, (nodebypath api w g path false false).node = some n → n.type = .TYPE_FILE →
        (cd api w true g rootDeleted (path :: more)).map (fun r => r.globals.cwd)
          = some g.cwd) ∧
      ((nodebypath api w g path false false).node = none →
        (cd api w true g rootDeleted (path :: more)).map (fun r => r.globals.cwd)
          = some g.cwd) ∧
      (∀ n, (nodebypath api w g path false false).node = some n → n.type ≠ .TYPE_FILE →
        (cd api w true g rootDeleted (path :: more)).map (fun r => r.globals.cwd)
          = some n.handle) ∧
      (∀ r, g.rootNode = some r →
        (cd api w true g false []).map (fun r => r.globals.cwd) = some r.handle) := by
  refine ⟨fun n hn ht => ?_, fun hn => ?_, fun n hn ht => ?_, fun r hr => ?_⟩
  · simp [cd, hrd, hn, ht]
  · simp [cd, hrd, hn]
  · simp [cd, hrd, hn, ht]
  · simp [cd, hr]

theorem cd_sets_cwd_witness :
    (cd simApi ⟨demoNodes, []⟩ true demoGlobals false [[102]]).map (fun r => r.globals.cwd)
        = some 2 ∧
      (cd simApi ⟨demoNodes, []⟩ true demoGlobals false [[120]]).map (fun r => r.globals.cwd)
        = some 2 ∧
      (cd simApi ⟨demoNodes, []⟩ true demoGlobals true [[98]]).map (fun r => r.globals.cwd)
        = some 2 ∧
      (cd simApi ⟨demoNodes, []⟩ true demoGlobals false [[SLASH, 98]]).map
          (fun r => r.globals.cwd) = some 3 ∧
      (cd simApi ⟨demoNodes, []⟩ true demoGlobals false []).map (fun r => r.globals.cwd)
        = some 1 :=
  ⟨(cd_sets_cwd simApi ⟨demoNodes, []⟩ demoGlobals false [102] [] (by decide)).1
      ⟨4, .TYPE_FILE, [102], 2⟩ (by decide) (by decide),
    (cd_sets_cwd simApi ⟨demoNodes, []⟩ demoGlobals false [120] [] (by decide)).2.1
      (by decide),
    (cd_sets_cwd simApi ⟨demoNodes, []⟩ demoGlobals true [98] [] (by decide)).2.1
      (by decide),
    (cd_sets_cwd simApi ⟨demoNodes, []⟩ demoGlobals false [SLASH, 98] [] (by decide)).2.2.1
      ⟨3, .TYPE_FOLDER, [98], 1⟩ (by decide) (by decide),
    (cd_sets_cwd simApi ⟨demoNodes, []⟩ demoGlobals false [] [] (by decide)).2.2.2
      ⟨1, .TYPE_ROOT, [], UNDEF⟩ (by decide)⟩

/-- The command `cd /` sets `cwd` to the handle of the account root and deletes
the object of `rootNode`; a following `cd` without argument, or `cd /a`, reads
the deleted object. -/
theorem cd_root_deletes_rootNode :
    cd simApi ⟨demoNodes, []⟩ true demoGlobals false [[SLASH]]
        = some ⟨⟨1, demoGlobals.rootNode⟩, true, []⟩ ∧
      cd simApi ⟨demoNodes, []⟩ true ⟨1, demoGlobals.rootNode⟩ true [] = none ∧
      cd simApi ⟨demoNodes, []⟩ true ⟨1, demoGlobals.rootNode⟩ true [[SLASH, 97]] = none := by
  decide

/-- C23: `actUponLogout` either clears the three globals or leaves all three
as they are.  When the wait ends with the request finished (the unbounded wait
of `timeout == 0`, or a bounded wait that does not expire) and the code is
`API_OK`, `cwd` becomes `UNDEF` and `rootNode` and `session` become `NULL`;
when the code is an error, or when a bounded wait expires, nothing changes. -/
theorem actUponLogout_atomic (srl : Listener) (timeout : Int) (st : SessionState) :
    ((timeout = 0 ∨ srl.trywait timeout = 0) → srl.error = API_OK →
        (actUponLogout srl timeout st).1 = ⟨⟨UNDEF, none⟩, none⟩) ∧
      ((timeout = 0 ∨ srl.trywait timeout = 0) → srl.error ≠ API_OK →
        (actUponLogout srl timeout st).1 = st) ∧
      (timeout ≠ 0 → srl.trywait timeout ≠ 0 → (actUponLogout srl timeout st).1 = st) := by
  refine ⟨fun hw he => ?_, fun hw he => ?_, fun ht hw => ?_⟩
  · unfold actUponLogout
    rcases hw with h | h
    · simp [h, he]
    · by_cases h0 : timeout = 0 <;> simp [h0, h, he]
  · unfold actUponLogout
    rcases hw with h | h
    · simp [h, he]
    · by_cases h0 : timeout = 0 <;> simp [h0, h, he]
  · unfold actUponLogout
    simp [ht, hw]

theorem actUponLogout_atomic_witness :
    (actUponLogout ⟨API_OK, fun _ => 0⟩ 500 ⟨demoGlobals, some [115]⟩).1
        = ⟨⟨UNDEF, none⟩, none⟩ ∧
      (actUponLogout ⟨API_EACCESS, fun _ => 0⟩ 0 ⟨demoGlobals, some [115]⟩).1
        = ⟨demoGlobals, some [115]⟩ ∧
      (actUponLogout ⟨API_OK, fun _ => 1⟩ 500 ⟨demoGlobals, some [115]⟩).1
        = ⟨demoGlobals, some [115]⟩ :=
  ⟨(actUponLogout_atomic ⟨API_OK, fun _ => 0⟩ 500 ⟨demoGlobals, some [115]⟩).1
      (Or.inr rfl) rfl,
    (actUponLogout_atomic ⟨API_EACCESS, fun _ => 0⟩ 0 ⟨demoGlobals, some [115]⟩).2.1
      (Or.inl rfl) (by decide),
    (actUponLogout_atomic ⟨API_OK, fun _ => 1⟩ 500 ⟨demoGlobals, some [115]⟩).2.2
      (by decide) (by decide)⟩

/-- C24, as stated, fails: in `actUponLogout`, `actUponCreateFolder` and
`actUponDeleteNode` the timeout `-1` selects the bounded wait (the outcome is
the timed-out one when `trywait(-1)` reports expiry, although the request
finishes with `API_OK`), and it is the timeout `0` that selects the unbounded
wait. -/
theorem wait_helpers_differ :
    (actUponLogout ⟨API_OK, fun _ => 1⟩ (-1) ⟨demoGlobals, some [115]⟩)
        = (⟨demoGlobals, some [115]⟩, [.logoutTookTooLong]) ∧
      (actUponLogout ⟨API_OK, fun _ => 1⟩ 0 ⟨demoGlobals, some [115]⟩)
        = (⟨⟨UNDEF, none⟩, none⟩, []) ∧
      (actUponCreateFolderT ⟨API_OK, fun _ => 1⟩ (-1) (⟨(), [], []⟩ : Exec Unit)).1 = 1 ∧
      (actUponCreateFolderT ⟨API_OK, fun _ => 1⟩ 0 (⟨(), [], []⟩ : Exec Unit)).1 = 0 ∧
      (actUponDeleteNode ⟨API_OK, fun _ => 1⟩ (-1) (⟨(), [], []⟩ : Exec Unit)).1 = 1 ∧
      (actUponDeleteNode ⟨API_OK, fun _ => 1⟩ 0 (⟨(), [], []⟩ : Exec Unit)).1 = 0 ∧
      (actUponFetchNodes simApi ⟨demoNodes, []⟩ ⟨API_OK, fun _ => 1⟩ (-1)
          ⟨⟨UNDEF, none⟩, none⟩).1.globals.cwd = 1 := by
  decide

/-- C24, amended: `actUponFetchNodes` and `actUponLogin` take the timeout `-1`
as the unbounded wait, `actUponLogout`, `actUponCreateFolder` and
`actUponDeleteNode` take the timeout `0` as the unbounded wait: there the
outcome does not depend on what `trywait` would report.  In each helper every
other timeout is a bounded wait of that many milliseconds: when it expires the
outcome is the timed-out one, whatever the error of the request, and when it
does not expire the outcome is that of the unbounded wait. -/
theorem wait_helpers_timeout {W : Type} (api : MegaApi W) (w : W) (err : Int)
    (tw : Int → Int) (fetch : Listener) (token : Option CStr) (st : SessionState)
    (e : Exec W) (timeout : Int) :
    (actUponFetchNodes api w ⟨err, tw⟩ (-1) st
        = actUponFetchNodes api w ⟨err, fun _ => 0⟩ (-1) st ∧
      actUponLogin api w ⟨err, tw⟩ fetch token (-1) st
        = actUponLogin api w ⟨err, fun _ => 0⟩ fetch token (-1) st ∧
      actUponLogout ⟨err, tw⟩ 0 st = actUponLogout ⟨err, fun _ => 0⟩ 0 st ∧
      actUponCreateFolderT ⟨err, tw⟩ 0 e = actUponCreateFolderT ⟨err, fun _ => 0⟩ 0 e ∧
      actUponDeleteNode ⟨err, tw⟩ 0 e = actUponDeleteNode ⟨err, fun _ => 0⟩ 0 e) ∧
    (tw timeout ≠ 0 →
      (timeout ≠ -1 →
        actUponFetchNodes api w ⟨err, tw⟩ timeout st = (st, [.fetchTookTooLong]) ∧
        actUponLogin api w ⟨err, tw⟩ fetch token timeout st
          = ⟨st, false, [.loginTookTooLong]⟩) ∧
      (timeout ≠ 0 →
        actUponLogout ⟨err, tw⟩ timeout st = (st, [.logoutTookTooLong]) ∧
        actUponCreateFolderT ⟨err, tw⟩ timeout e = (1, e.print .createFolderTookTooLong) ∧
        actUponDeleteNode ⟨err, tw⟩ timeout e = (1, e.print .deleteTookTooLong))) ∧
    (tw timeout = 0 →
      actUponFetchNodes api w ⟨err, tw⟩ timeout st
        = actUponFetchNodes api w ⟨err, tw⟩ (-1) st ∧
      actUponLogout ⟨err, tw⟩ timeout st = actUponLogout ⟨err, tw⟩ 0 st ∧
      actUponCreateFolderT ⟨err, tw⟩ timeout e = actUponCreateFolderT ⟨err, tw⟩ 0 e ∧
      actUponDeleteNode ⟨err, tw⟩ timeout e = actUponDeleteNode ⟨err, tw⟩ 0 e) := by
  refine ⟨⟨?_, ?_, ?_, ?_, ?_⟩, fun htw => ⟨fun h1 => ⟨?_, ?_⟩, fun h0 => ⟨?_, ?_, ?_⟩⟩,
    fun htw => ⟨?_, ?_, ?_, ?_⟩⟩
  · simp [actUponFetchNodes]
  · simp [actUponLogin]
  · simp [actUponLogout]
  · simp [actUponCreateFolderT]
  · simp [actUponDeleteNode]
  · simp [actUponFetchNodes, h1, htw]
  · simp [actUponLogin, h1, htw]
  · simp [actUponLogout, h0, htw]
  · simp [actUponCreateFolderT, h0, htw]
  · simp [actUponDeleteNode, h0, htw]
  · by_cases h1 : timeout = -1 <;> simp [actUponFetchNodes, h1, htw]
  · by_cases h0 : timeout = 0 <;> simp [actUponLogout, h0, htw]
  · by_cases h0 : timeout = 0 <;> simp [actUponCreateFolderT, h0, htw]
  · by_cases h0 : timeout = 0 <;> simp [actUponDeleteNode, h0, htw]

theorem wait_helpers_timeout_witness :
    actUponLogout ⟨API_EACCESS, fun _ => 1⟩ 5 ⟨demoGlobals, none⟩
        = (⟨demoGlobals, none⟩, [.logoutTookTooLong]) ∧
      actUponLogout ⟨API_OK, fun _ => 0⟩ 5 ⟨demoGlobals, none⟩
        = actUponLogout ⟨API_OK, fun _ => 0⟩ 0 ⟨demoGlobals, none⟩ :=
  have h := wait_helpers_timeout simApi ⟨demoNodes, []⟩ API_EACCESS (fun _ => 1)
    ⟨API_OK, fun _ => 0⟩ none ⟨demoGlobals, none⟩ ⟨⟨demoNodes, []⟩, [], []⟩ 5
  have h' := wait_helpers_timeout simApi ⟨demoNodes, []⟩ API_OK (fun _ => 0)
    ⟨API_OK, fun _ => 0⟩ none ⟨demoGlobals, none⟩ ⟨⟨demoNodes, []⟩, [], []⟩ 5
  ⟨((h.2.1 (by decide)).2 (by decide)).1, (h'.2.2 rfl).2.1⟩

/-- The general `actUponCreateFolder` at its default timeout is the function
used in `mkdir`. -/
theorem actUponCreateFolderT_default {W : Type} (srl : Listener) (e : Exec W) :
    actUponCreateFolderT srl 0 e = actUponCreateFolder e srl.error := by
  simp [actUponCreateFolderT, actUponCreateFolder]

/-- C25 at its failing inputs.  The line `"a\"b"` (quote, `a`, backslash,
quote, `b`, quote) is split into the two words `a\` and `b"`: after the
backslash the quote is examined like any other byte and ends the argument.
The line `a\ b` is split into the two words `a\` and `b`: a regular argument
ends at the space, whatever precedes it. -/
theorem splitLine_backslash_not_escape :
    splitLine [34, 97, BACKSLASH, 34, 98, 34] = [[97, BACKSLASH], [98, 34]] ∧
      splitLine [97, BACKSLASH, 32, 98] = [[97, BACKSLASH], [98]] := by
  decide

/-- C26 at its failing input.  In folder `a`, `mv f g` with both files present
and every request completing with `API_OK`: the requests are `moveNode` and
`remove(g)` and no `renameNode`, so the moved node still bears the name `f`.
With a file `f` also in folder `b`, `mv f /b/f` issues `renameNode(n, "f")`:
the rename is issued exactly when the two names are already equal. -/
theorem mv_onto_file_rename_gate :
    (mv simApi demoGlobals ⟨demoNodes, []⟩ [102] [103]).issued
        = [.moveNode ⟨4, .TYPE_FILE, [102], 2⟩ ⟨2, .TYPE_FOLDER, [97], 1⟩,
           .remove ⟨5, .TYPE_FILE, [103], 2⟩] ∧
      simApi.getNodeByHandle (mv simApi demoGlobals ⟨demoNodes, []⟩ [102] [103]).world 4
        = some ⟨4, .TYPE_FILE, [102], 2⟩ ∧
      (mv simApi demoGlobals ⟨demoNodes ++ [⟨8, .TYPE_FILE, [102], 3⟩], []⟩
          [102] [47, 98, 47, 102]).issued
        = [.moveNode ⟨4, .TYPE_FILE, [102], 2⟩ ⟨3, .TYPE_FOLDER, [98], 1⟩,
           .remove ⟨8, .TYPE_FILE, [102], 3⟩,
           .renameNode ⟨4, .TYPE_FILE, [102], 2⟩ [102]] := by
  decide

/-- C27 at its failing input.  The command `version` ends with the assignment
`cwd = UNDEF`: with `cwd` at folder `a` before, `cwd` is `UNDEF` after. -/
theorem version_resets_cwd :
    demoGlobals.cwd = 2 ∧ (version demoGlobals).1.cwd = UNDEF ∧
      (version demoGlobals).1.cwd ≠ demoGlobals.cwd := by
  decide

/-- C28 at its failing input.  The login request finishes with `API_EACCESS`,
an error other than `API_ENOENT`: `actUponLogin` logs the login as correct,
records the session token and issues `fetchNodes`. -/
theorem actUponLogin_other_error :
    API_EACCESS ≠ API_OK ∧
      actUponLogin simApi ⟨demoNodes, []⟩ ⟨API_EACCESS, fun _ => 0⟩ ⟨API_OK, fun _ => 0⟩
          (some [115]) (-1) ⟨⟨UNDEF, none⟩, none⟩
        = ⟨⟨⟨1, some ⟨1, .TYPE_ROOT, [], UNDEF⟩⟩, some [115]⟩, true, [.loginCorrect]⟩ := by
  decide

/-- C29 at its failing input.  In folder `a`, where `f` is a file, `mkdir f/x`
descends into `f` and issues `createFolder("x", f)`, with the file as the
parent. -/
theorem mkdir_under_file :
    simApi.getChildNode ⟨demoNodes, []⟩ ⟨2, .TYPE_FOLDER, [97], 1⟩ [102]
        = some ⟨4, .TYPE_FILE, [102], 2⟩ ∧
      (mkdir simApi demoGlobals ⟨demoNodes, []⟩ [102, SLASH, 120]).issued
        = [.createFolder [120] ⟨4, .TYPE_FILE, [102], 2⟩] := by
  decide

/-! ## `nodepath` and back -/

theorem slashPath_append (xs ys : List CStr) :
    slashPath (xs ++ ys) = slashPath xs ++ slashPath ys := by
  induction xs with
  | nil => rfl
  | cons x xs ih => simp [slashPath, ih]

/-- The splitting loop on names each preceded by `/`: every name becomes a
component. -/
theorem splitLoop_slashPath (names : List CStr)
    (hn : ∀ x ∈ names, utf8Valid x = true ∧ noSpecial x) :
    ∀ (s pend : CStr) (c : List CStr) (r : Bool),
      splitLoop 0 s pend c r (slashPath names) = some ⟨c ++ (s ++ pend) :: names, r, 0⟩ := by
  induction names with
  | nil =>
    intro s pend c r
    simp [slashPath, splitLoop_nil, splitAtEnd]
  | cons x xs ih =>
    intro s pend c r
    have hx := hn x (List.mem_cons_self x xs)
    have hxs : ∀ y ∈ xs, utf8Valid y = true ∧ noSpecial y :=
      fun y hy => hn y (List.mem_cons_of_mem x hy)
    rw [slashPath, splitLoop_slash,
      splitLoop_plain x 0 0 [] [] (c ++ [s ++ pend]) r (slashPath xs) hx.1 (by omega) hx.2,
      ih hxs]
    simp

theorem plainName_spec (x : CStr) (h : plainName x = true) :
    utf8Valid x = true ∧ x ≠ [] ∧ x ≠ DOT ∧ x ≠ DOTDOT ∧ noSpecial x := by
  simpa [plainName, and_assoc] using h

theorem descends_cons {W : Type} (api : MegaApi W) (w : W) (isInShare : MegaNode → Bool)
    (p m : MegaNode) (rest : List MegaNode) (h : descends api w isInShare p (m :: rest) = true) :
    (m.type = .TYPE_FILE ∨ m.type = .TYPE_FOLDER) ∧ isInShare m = false ∧
      plainName m.name = true ∧ api.getNodeByHandle w m.parentHandle = some p ∧
      api.getChildNode w p m.name = some m ∧ descends api w isInShare m rest = true := by
  simpa [descends, and_assoc] using h

theorem descends_names {W : Type} (api : MegaApi W) (w : W) (isInShare : MegaNode → Bool)
    (down : List MegaNode) :
    ∀ p, descends api w isInShare p down = true →
      ∀ x ∈ down.map MegaNode.name, plainName x = true := by
  induction down with
  | nil => intro p _ x hx; simp at hx
  | cons m rest ih =>
    intro p h x hx
    obtain ⟨_, _, h3, _, _, h6⟩ := descends_cons api w isInShare p m rest h
    rcases List.mem_cons.mp hx with hx | hx
    · rw [hx]; exact h3
    · exact ih m h6 x hx

theorem descends_snoc {W : Type} (api : MegaApi W) (w : W) (isInShare : MegaNode → Bool)
    (ds : List MegaNode) (d : MegaNode) :
    ∀ p, descends api w isInShare p (ds ++ [d]) = true →
      descends api w isInShare p ds = true ∧
        descends api w isInShare (ds.getLastD p) [d] = true := by
  induction ds with
  | nil => intro p h; exact ⟨rfl, h⟩
  | cons m rest ih =>
    intro p h
    obtain ⟨h1, h2, h3, h4, h5, h6⟩ := descends_cons api w isInShare p m (rest ++ [d]) h
    obtain ⟨h7, h8⟩ := ih m h6
    have hl : (m :: rest).getLastD p = rest.getLastD m := by cases rest <;> rfl
    refine ⟨?_, by rw [hl]; exact h8⟩
    simp only [descends, h2, h3, h4, h5, h7]
    rcases h1 with h1 | h1 <;> simp [h1]

/-- The walk along the names of a descending chain arrives at its last
node. -/
theorem walk_descends {W : Type} (api : MegaApi W) (w : W) (isInShare : MegaNode → Bool)
    (wn : Bool) (down : List MegaNode) :
    ∀ (p : MegaNode) (sh : Bool), descends api w isInShare p down = true →
      (walk api w wn (some p) sh (down.map MegaNode.name)).node = some (down.getLastD p) := by
  induction down with
  | nil => intro p sh _; simp [walk_nil]
  | cons m rest ih =>
    intro p sh h
    obtain ⟨_, _, h3, _, h5, h6⟩ := descends_cons api w isInShare p m rest h
    obtain ⟨_, n1, n2, n3, _⟩ := plainName_spec m.name h3
    have hl : (m :: rest).getLastD p = rest.getLastD m := by cases rest <;> rfl
    rw [List.map_cons, walk_cons api w wn p sh m.name (rest.map MegaNode.name), hl]
    simp only [n1, n2, n3, if_false, h5]
    exact ih m false h6

/-- The loop of `nodepath` started at the last node of a descending chain
climbs to the top of the chain and returns the names, each preceded by `/`,
behind the prefix of the top. -/
theorem nodepathLoop_descends {W : Type} (api : MegaApi W) (w : W)
    (isInShare : MegaNode → Bool) (gu : MegaNode → Option CStr) (top : MegaNode)
    (ht : top.type = .TYPE_ROOT ∨ top.type = .TYPE_INCOMING ∨ top.type = .TYPE_RUBBISH)
    (down : List MegaNode) :
    ∀ (fuel : Nat) (acc : CStr), descends api w isInShare top down = true →
      down.length < fuel →
      nodepathLoop api w isInShare gu fuel (some (down.getLastD top)) acc
        = some (rootPrefix top.type ++ slashPath (down.map MegaNode.name) ++ acc) := by
  induction down using List.reverseRecOn with
  | nil =>
    intro fuel acc _ hf
    obtain ⟨f, rfl⟩ : ∃ f, fuel = f + 1 := ⟨fuel - 1, by simp at hf; omega⟩
    simp only [List.getLastD_nil, List.map_nil, slashPath, List.append_nil]
    rcases ht with ht | ht | ht <;> simp [nodepathLoop, ht, rootPrefix]
  | append_singleton ds d ih =>
    intro fuel acc h hf
    obtain ⟨f, rfl⟩ : ∃ f, fuel = f + 1 := ⟨fuel - 1, by simp at hf; omega⟩
    obtain ⟨h1, h2⟩ := descends_snoc api w isInShare ds d top h
    obtain ⟨t1, t2, _, t4, _, _⟩ := descends_cons api w isInShare _ d [] h2
    have hl : (ds ++ [d]).getLastD top = d := by simp
    have hlen : ds.length < f := by simp at hf; omega
    have step : nodepathLoop api w isInShare gu (f + 1) (some d) acc
        = nodepathLoop api w isInShare gu f (some (ds.getLastD top))
            (SLASH :: (d.name ++ acc)) := by
      rcases t1 with t1 | t1 <;> simp [nodepathLoop, t1, t2, t4]
    rw [hl, step, ih f _ h1 hlen, List.map_append, slashPath_append]
    simp [slashPath]

theorem nodebypath_slashPath {W : Type} (api : MegaApi W) (w : W) (g : Globals)
    (wu wn : Bool) (names : List CStr)
    (hn : ∀ x ∈ names, utf8Valid x = true ∧ noSpecial x) :
    nodebypath api w g (slashPath names) wu wn =
      match startNode api w g ([] :: names) with
      | none => Resolved.null
      | some (n, sh, l) => walk api w wn n sh (([] :: names).drop l) := by
  apply nodebypath_local
  have h := splitLoop_slashPath names hn [] [] [] false
  simpa [splitPath] using h

theorem descends_last_type {W : Type} (api : MegaApi W) (w : W) (isInShare : MegaNode → Bool)
    (top : MegaNode) (down : List MegaNode) (h : descends api w isInShare top down = true)
    (hne : down ≠ []) :
    (down.getLastD top).type = .TYPE_FILE ∨ (down.getLastD top).type = .TYPE_FOLDER := by
  induction down using List.reverseRecOn with
  | nil => exact absurd rfl hne
  | append_singleton ds d _ =>
    obtain ⟨_, h2⟩ := descends_snoc api w isInShare ds d top h
    have hl : (ds ++ [d]).getLastD top = d := by simp
    rw [hl]
    exact (descends_cons api w isInShare _ d [] h2).1

theorem plainName_parts (x : CStr) (h : plainName x = true) :
    utf8Valid x = true ∧ noSpecial x :=
  ⟨(plainName_spec x h).1, (plainName_spec x h).2.2.2.2⟩

/-! ## `nodepath` and back: claims -/

/-- C30, as stated, fails.  Under the account root there is a folder whose
name is the single byte `0xE9` and in it the file `x`; every name on the
chain is non-empty, is not `.` or `..`, has no `/`, `:` or backslash and is
unique among its siblings, and no node is an inbound share.  `nodepath` of the
file is `/`, `0xE9`, `/`, `x`, and `nodebypath` of that path is `NULL`: after
the byte `0xE9` the splitter passes over the `/` that follows. -/
theorem nodepath_roundtrip_stray_lead :
    nodepath simApi ⟨demoNodes ++ [⟨8, .TYPE_FOLDER, [0xE9], 1⟩, ⟨9, .TYPE_FILE, [120], 8⟩], []⟩
        demoGlobals (fun _ => false) (fun _ => none) 3 9 = some [SLASH, 0xE9, SLASH, 120] ∧
      (nodebypath simApi
          ⟨demoNodes ++ [⟨8, .TYPE_FOLDER, [0xE9], 1⟩, ⟨9, .TYPE_FILE, [120], 8⟩], []⟩
          demoGlobals [SLASH, 0xE9, SLASH, 120] false false).node = none ∧
      simApi.getNodeByHandle
          ⟨demoNodes ++ [⟨8, .TYPE_FOLDER, [0xE9], 1⟩, ⟨9, .TYPE_FILE, [120], 8⟩], []⟩ 9
        = some ⟨9, .TYPE_FILE, [120], 8⟩ ∧
      simApi.getChildNode
          ⟨demoNodes ++ [⟨8, .TYPE_FOLDER, [0xE9], 1⟩, ⟨9, .TYPE_FILE, [120], 8⟩], []⟩
          ⟨1, .TYPE_ROOT, [], UNDEF⟩ [0xE9] = some ⟨8, .TYPE_FOLDER, [0xE9], 1⟩ ∧
      simApi.getChildNode
          ⟨demoNodes ++ [⟨8, .TYPE_FOLDER, [0xE9], 1⟩, ⟨9, .TYPE_FILE, [120], 8⟩], []⟩
          ⟨8, .TYPE_FOLDER, [0xE9], 1⟩ [120] = some ⟨9, .TYPE_FILE, [120], 8⟩ ∧
      noSpecial [0xE9] ∧ noSpecial [120] ∧ utf8Valid [0xE9] = false := by
  decide

/-- C30, amended: the names on the chain are, in addition, correctly encoded
UTF-8 text.  Let `top` be the account root held in `rootNode`, the Inbox node
or the Rubbish node, and let `down` descend from it: files and folders that
are not inbound shares, each the child of the one before under a name that is
non-empty, correctly encoded, not `.` or `..`, and without `/`, `:` and
backslash.  Let `h` be the handle of the last node of the chain (of `top` when
`down` is empty), live in the store, and let `rootNode`, when set, be a live
node of type ROOT.  Then, with fuel beyond the length of the chain, `nodepath`
returns a path, `nodebypath` of that path returns that last node, whatever
`cwd` is and whichever of `user` and `namepart` are passed, and the path is
`/` for the account root and otherwise the prefix of `top` (nothing, `//in` or
`//bin`) followed by the names, each preceded by `/`. -/
theorem nodepath_roundtrip {W : Type} (api : MegaApi W) (w : W) (g : Globals)
    (isInShare : MegaNode → Bool) (gu : MegaNode → Option CStr)
    (top : MegaNode) (down : List MegaNode) (h fuel : Nat) (wu wn : Bool)
    (htop : isTop api w g top = true)
    (hdown : descends api w isInShare top down = true)
    (hlive : api.getNodeByHandle w h = some (down.getLastD top))
    (hh : (down.getLastD top).handle = h)
    (hcache : ∀ r, g.rootNode = some r →
      r.type = .TYPE_ROOT ∧ api.getNodeByHandle w r.handle = some r)
    (hfuel : down.length < fuel) :
    ∃ path, nodepath api w g isInShare gu fuel h = some path ∧
      (nodebypath api w g path wu wn).node = some (down.getLastD top) ∧
      path = if top.type = .TYPE_ROOT ∧ down = [] then [SLASH]
        else rootPrefix top.type ++ slashPath (down.map MegaNode.name) := by
  have hnames : ∀ x ∈ down.map MegaNode.name, utf8Valid x = true ∧ noSpecial x :=
    fun x hx => plainName_parts x (descends_names api w isInShare down top hdown x hx)
  have htype : top.type = .TYPE_ROOT ∨ top.type = .TYPE_INCOMING ∨ top.type = .TYPE_RUBBISH := by
    simp only [isTop, Bool.or_eq_true, Bool.and_eq_true, decide_eq_true_eq] at htop
    rcases htop with (⟨a, _⟩ | ⟨a, _⟩) | ⟨a, _⟩
    · exact Or.inl a
    · exact Or.inr (Or.inl a)
    · exact Or.inr (Or.inr a)
  have hloop := nodepathLoop_descends api w isInShare gu top htype down fuel [] hdown hfuel
  rw [List.append_nil] at hloop
  -- the case in which `nodepath` answers `/` at once
  by_cases hroot : ∃ r, g.rootNode = some r ∧ h = r.handle
  · obtain ⟨r, hr, hhr⟩ := hroot
    obtain ⟨hrt, hrl⟩ := hcache r hr
    have hrm : r = down.getLastD top := by
      rw [← hhr, hlive] at hrl
      exact (Option.some.inj hrl).symm
    have hd : down = [] := by
      by_contra hne
      have := descends_last_type api w isInShare top down hdown hne
      rw [← hrm, hrt] at this
      rcases this with t | t <;> cases t
    subst hd
    simp only [List.getLastD_nil] at hrm hlive hh ⊢
    subst hrm
    refine ⟨[SLASH], ?_, ?_, ?_⟩
    · simp [nodepath, hr, hhr]
    · have hs : [SLASH] = slashPath [[]] := rfl
      rw [hs, nodebypath_slashPath api w g wu wn [[]] (by decide)]
      simp [startNode, hr, walk_cons, walk_nil, DOT, DOTDOT]
    · simp [hrt]
  · have hnp : nodepath api w g isInShare gu fuel h
        = some (rootPrefix top.type ++ slashPath (down.map MegaNode.name)) := by
      unfold nodepath
      cases hr : g.rootNode with
      | none => simp only []; rw [hlive, hloop]
      | some r =>
        have hne : h ≠ r.handle := fun e => hroot ⟨r, hr, e⟩
        simp only [hne, if_false]; rw [hlive, hloop]
    refine ⟨_, hnp, ?_, ?_⟩
    · rcases htype with ht | ht | ht
      · -- below the account root
        have hg : g.rootNode = some top := by
          simp only [isTop, ht, Bool.or_eq_true, Bool.and_eq_true, decide_eq_true_eq] at htop
          rcases htop with (⟨_, a⟩ | ⟨a, _⟩) | ⟨a, _⟩
          · exact a
          · cases a
          · cases a
        cases down with
        | nil =>
          exact absurd ⟨top, hg, by simpa using hh.symm⟩ hroot
        | cons d ds =>
          have hd1 : d.name ≠ [] :=
            (plainName_spec d.name (descends_cons api w isInShare top d ds hdown).2.2.1).2.1
          rw [ht]
          simp only [rootPrefix, List.nil_append]
          rw [nodebypath_slashPath api w g wu wn _ hnames]
          have hs : startNode api w g ([] :: (d :: ds).map MegaNode.name)
              = some (g.rootNode, true, 1) := by
            simp [startNode, hd1]
          rw [hs, hg]
          exact walk_descends api w isInShare wn (d :: ds) top true hdown
      · -- below the Inbox node
        have hg : api.getInboxNode w = some top := by
          simp only [isTop, ht, Bool.or_eq_true, Bool.and_eq_true, decide_eq_true_eq] at htop
          rcases htop with (⟨a, _⟩ | ⟨_, a⟩) | ⟨a, _⟩
          · cases a
          · exact a
          · cases a
        rw [ht]
        have hp : rootPrefix .TYPE_INCOMING ++ slashPath (down.map MegaNode.name)
            = slashPath ([] :: IN :: down.map MegaNode.name) := by
          simp [rootPrefix, slashPath]
        have hn2 : ∀ x ∈ IN :: down.map MegaNode.name, utf8Valid x = true ∧ noSpecial x := by
          intro x hx
          rcases List.mem_cons.mp hx with hx | hx
          · rw [hx]; decide
          · exact hnames x hx
        have hn3 : ∀ x ∈ [] :: IN :: down.map MegaNode.name,
            utf8Valid x = true ∧ noSpecial x := by
          intro x hx
          rcases List.mem_cons.mp hx with hx | hx
          · rw [hx]; decide
          · exact hn2 x hx
        rw [hp, nodebypath_slashPath api w g wu wn _ hn3]
        have hs : startNode api w g ([] :: [] :: IN :: down.map MegaNode.name)
            = some (api.getInboxNode w, false, 3) := by
          simp [startNode]
        rw [hs, hg]
        exact walk_descends api w isInShare wn down top false hdown
      · -- below the Rubbish node
        have hg : api.getRubbishNode w = some top := by
          simp only [isTop, ht, Bool.or_eq_true, Bool.and_eq_true, decide_eq_true_eq] at htop
          rcases htop with (⟨a, _⟩ | ⟨a, _⟩) | ⟨_, a⟩
          · cases a
          · cases a
          · exact a
        rw [ht]
        have hp : rootPrefix .TYPE_RUBBISH ++ slashPath (down.map MegaNode.name)
            = slashPath ([] :: BIN :: down.map MegaNode.name) := by
          simp [rootPrefix, slashPath]
        have hn2 : ∀ x ∈ BIN :: down.map MegaNode.name, utf8Valid x = true ∧ noSpecial x := by
          intro x hx
          rcases List.mem_cons.mp hx with hx | hx
          · rw [hx]; decide
          · exact hnames x hx
        have hn3 : ∀ x ∈ [] :: BIN :: down.map MegaNode.name,
            utf8Valid x = true ∧ noSpecial x := by
          intro x hx
          rcases List.mem_cons.mp hx with hx | hx
          · rw [hx]; decide
          · exact hn2 x hx
        rw [hp, nodebypath_slashPath api w g wu wn _ hn3]
        have hne : BIN ≠ IN := by decide
        have hs : startNode api w g ([] :: [] :: BIN :: down.map MegaNode.name)
            = some (api.getRubbishNode w, false, 3) := by
          simp [startNode, hne]
        rw [hs, hg]
        exact walk_descends api w isInShare wn down top false hdown
    · have hnot : ¬ (top.type = .TYPE_ROOT ∧ down = []) := by
        rintro ⟨ht, hd⟩
        subst hd
        have hg : g.rootNode = some top := by
          simp only [isTop, ht, Bool.or_eq_true, Bool.and_eq_true, decide_eq_true_eq] at htop
          rcases htop with (⟨_, a⟩ | ⟨a, _⟩) | ⟨a, _⟩
          · exact a
          · cases a
          · cases a
        exact hroot ⟨top, hg, by simpa using hh.symm⟩
      simp [hnot]

theorem nodepath_roundtrip_witness :
    ∃ path, nodepath simApi ⟨demoNodes, []⟩ ⟨3, demoGlobals.rootNode⟩ (fun _ => false)
        (fun _ => none) 3 4 = some path ∧
      (nodebypath simApi ⟨demoNodes, []⟩ ⟨3, demoGlobals.rootNode⟩ path false true).node
        = some ⟨4, .TYPE_FILE, [102], 2⟩ ∧
      path = [SLASH, 97, SLASH, 102] :=
  nodepath_roundtrip simApi ⟨demoNodes, []⟩ ⟨3, demoGlobals.rootNode⟩ (fun _ => false)
    (fun _ => none) ⟨1, .TYPE_ROOT, [], UNDEF⟩
    [⟨2, .TYPE_FOLDER, [97], 1⟩, ⟨4, .TYPE_FILE, [102], 2⟩] 4 3 false true
    (by decide) (by decide) (by decide) (by decide) (by decide) (by decide)

end MegaCmd
